import Mathlib
namespace Lox

set_option maxHeartbeats 1600000

/-! ## String helpers.  Rust `str::to_lowercase` and the byte-wise
`Ord` used by `Vec::<String>::sort` are embedded character-wise; every
string they are applied to in this development is ASCII. -/

def toLowerStr (s : String) : String :=
  String.mk (s.data.map Char.toLower)

def strLeAux : List Char → List Char → Bool
  | [], _ => true
  | _ :: _, [] => false
  | a :: as, b :: bs =>
      if a.toNat < b.toNat then true
      else if b.toNat < a.toNat then false
      else strLeAux as bs

def strLe (a b : String) : Bool :=
  strLeAux a.data b.data

def insertSorted (x : String) : List String → List String
  | [] => [x]
  | y :: ys => if strLe x y then x :: y :: ys else y :: insertSorted x ys

def sortStrs (l : List String) : List String :=
  l.foldr insertSorted []

/-! ## Tokens (token.rs, completed by the variants that lexer.rs and
parser.rs construct: the snapshot of token.rs omits `In`, `Import`,
`Assert`, `Mod`, the compound-assign operators and the bit operators,
although the other modules use them). -/

inductive Token where
  | varT
  | andT
  | classT
  | newT
  | elseT
  | falseT
  | forT
  | funT
  | ifT
  | nilT
  | orT
  | printT
  | returnT
  | superT
  | thisT
  | trueT
  | whileT
  | switchT
  | caseT
  | defaultT
  | identifier (s : String)
  | equal
  | stringT (s : String)
  | number (s : String)
  | semicolon
  | eof
  | leftParen
  | rightParen
  | leftBrace
  | rightBrace
  | leftBracket
  | rightBracket
  | star
  | slash
  | minus
  | plus
  | comma
  | dot
  | colon
  | equalEqual
  | bang
  | bangEqual
  | less
  | lessEqual
  | greater
  | greaterEqual
  | comment (s : String)
  | inT
  | importT
  | assertT
  | bitOr
  | bitAnd
  | mod
  | plusSelf
  | minusSelf
  | starSelf
  | slashSelf
  | modSelf
  deriving Repr

/-- Constructor tag of a token (used only to decide token equality with
a shallow term, in place of the derived instance). -/
def Token.tag : Token → Nat
  | .varT => 0
  | .andT => 1
  | .classT => 2
  | .newT => 3
  | .elseT => 4
  | .falseT => 5
  | .forT => 6
  | .funT => 7
  | .ifT => 8
  | .nilT => 9
  | .orT => 10
  | .printT => 11
  | .returnT => 12
  | .superT => 13
  | .thisT => 14
  | .trueT => 15
  | .whileT => 16
  | .switchT => 17
  | .caseT => 18
  | .defaultT => 19
  | .identifier _ => 20
  | .equal => 21
  | .stringT _ => 22
  | .number _ => 23
  | .semicolon => 24
  | .eof => 25
  | .leftParen => 26
  | .rightParen => 27
  | .leftBrace => 28
  | .rightBrace => 29
  | .leftBracket => 30
  | .rightBracket => 31
  | .star => 32
  | .slash => 33
  | .minus => 34
  | .plus => 35
  | .comma => 36
  | .dot => 37
  | .colon => 38
  | .equalEqual => 39
  | .bang => 40
  | .bangEqual => 41
  | .less => 42
  | .lessEqual => 43
  | .greater => 44
  | .greaterEqual => 45
  | .comment _ => 46
  | .inT => 47
  | .importT => 48
  | .assertT => 49
  | .bitOr => 50
  | .bitAnd => 51
  | .mod => 52
  | .plusSelf => 53
  | .minusSelf => 54
  | .starSelf => 55
  | .slashSelf => 56
  | .modSelf => 57

/-- String payload of a token (empty for payload-free constructors). -/
def Token.payload : Token → String
  | .identifier s => s
  | .stringT s => s
  | .number s => s
  | .comment s => s
  | _ => ""

/-- Inverse of the `(tag, payload)` encoding. -/
def Token.decode : Nat → String → Token
  | 0, _ => .varT
  | 1, _ => .andT
  | 2, _ => .classT
  | 3, _ => .newT
  | 4, _ => .elseT
  | 5, _ => .falseT
  | 6, _ => .forT
  | 7, _ => .funT
  | 8, _ => .ifT
  | 9, _ => .nilT
  | 10, _ => .orT
  | 11, _ => .printT
  | 12, _ => .returnT
  | 13, _ => .superT
  | 14, _ => .thisT
  | 15, _ => .trueT
  | 16, _ => .whileT
  | 17, _ => .switchT
  | 18, _ => .caseT
  | 19, _ => .defaultT
  | 20, s => .identifier s
  | 21, _ => .equal
  | 22, s => .stringT s
  | 23, s => .number s
  | 24, _ => .semicolon
  | 25, _ => .eof
  | 26, _ => .leftParen
  | 27, _ => .rightParen
  | 28, _ => .leftBrace
  | 29, _ => .rightBrace
  | 30, _ => .leftBracket
  | 31, _ => .rightBracket
  | 32, _ => .star
  | 33, _ => .slash
  | 34, _ => .minus
  | 35, _ => .plus
  | 36, _ => .comma
  | 37, _ => .dot
  | 38, _ => .colon
  | 39, _ => .equalEqual
  | 40, _ => .bang
  | 41, _ => .bangEqual
  | 42, _ => .less
  | 43, _ => .lessEqual
  | 44, _ => .greater
  | 45, _ => .greaterEqual
  | 46, s => .comment s
  | 47, _ => .inT
  | 48, _ => .importT
  | 49, _ => .assertT
  | 50, _ => .bitOr
  | 51, _ => .bitAnd
  | 52, _ => .mod
  | 53, _ => .plusSelf
  | 54, _ => .minusSelf
  | 55, _ => .starSelf
  | 56, _ => .slashSelf
  | 57, _ => .modSelf
  | _, _ => .eof

instance : DecidableEq Token := fun a b =>
  decidable_of_iff (a.tag = b.tag ∧ a.payload = b.payload)
    ⟨fun h => by
      have ha : Token.decode a.tag a.payload = a := by cases a <;> rfl
      have hb : Token.decode b.tag b.payload = b := by cases b <;> rfl
      rw [← ha, h.1, h.2, hb],
     fun h => by rw [h]; exact ⟨rfl, rfl⟩⟩

/-! ## Lexer (lexer.rs).  `Lexing.input` is the character stream, `l` its
total length, `position` the cursor; `Chars::nth(0)` reads the character
at the cursor and advances it. -/

structure Lexing where
  input : List Char
  position : Nat
  l : Nat
  lines : Nat
  errors : List String
  deriving DecidableEq, Repr

def Lexing.new (input : String) : Lexing :=
  ⟨input.data, 0, input.data.length, 0, []⟩

/-- The keyword map built in `Lexing::new` (lexer.rs lines 24-47).  The
source inserts exactly these twenty-two pairs; `assert` is absent. -/
def keywords : List (String × Token) :=
  [ ("var", .varT), ("and", .andT), ("class", .classT), ("else", .elseT),
    ("false", .falseT), ("for", .forT), ("fun", .funT), ("if", .ifT),
    ("nil", .nilT), ("or", .orT), ("print", .printT), ("return", .returnT),
    ("super", .superT), ("this", .thisT), ("true", .trueT), ("while", .whileT),
    ("switch", .switchT), ("case", .caseT), ("default", .defaultT),
    ("new", .newT), ("in", .inT), ("import", .importT) ]

def Lexing.isKeyword (s : String) : Bool :=
  (keywords.lookup s).isSome

/-- `get_char`: advance and read; the source `unwrap`s the iterator, so an
exhausted input is a panic, embedded as `none`. -/
def Lexing.getChar (st : Lexing) : Option (Char × Lexing) :=
  match st.input[st.position]? with
  | some c =>
      some (c, ⟨st.input, st.position + 1, st.l,
                if c = '\n' then st.lines + 1 else st.lines, st.errors⟩)
  | none => none

def Lexing.peek (st : Lexing) : Char :=
  if st.l > st.position then st.input.getD st.position (Char.ofNat 0)
  else Char.ofNat 0

def Lexing.peekN (st : Lexing) (n : Nat) : Char :=
  if st.l > st.position + n - 1 then st.input.getD (st.position + n - 1) (Char.ofNat 0)
  else Char.ofNat 0

def Lexing.hasErrors (st : Lexing) : Bool :=
  st.errors.length > 0

def Lexing.pushError (st : Lexing) (msg : String) : Lexing :=
  ⟨st.input, st.position, st.l, st.lines, st.errors ++ [msg]⟩

/-- Result of one `next()` call.  `panicked` embeds a Rust panic
(an `unwrap` of an exhausted iterator); `fuelOut` only signals that the
embedding's fuel ran out and never corresponds to source behaviour. -/
inductive NextRes where
  | tok (t : Token) (st : Lexing)
  | panicked
  | fuelOut
  deriving DecidableEq, Repr

/-- Escape mapping of the single-quoted string branch
(lexer.rs lines 150-164); `none` is the "Unknown escape character" path. -/
def escSingle (c : Char) : Option Char :=
  if c = '\'' then some '\''
  else if c = 'r' then some '\r'
  else if c = 'n' then some '\n'
  else if c = 't' then some '\t'
  else if c = '0' then some (Char.ofNat 0)
  else if c = '\\' then some '\\'
  else none

/-- Escape mapping of the double-quoted string branch
(lexer.rs lines 198-212). -/
def escDouble (c : Char) : Option Char :=
  if c = '"' then some '"'
  else if c = 'r' then some '\r'
  else if c = 'n' then some '\n'
  else if c = 't' then some '\t'
  else if c = '0' then some (Char.ofNat 0)
  else if c = '\\' then some '\\'
  else if c = '\'' then some '\''
  else none

def unknownEscapeMsg (lines : Nat) (c : Char) : String :=
  "[line " ++ toString (lines + 1) ++ "] Error: Unknown escape character: "
    ++ String.mk [c]

def unterminatedMsg (lines : Nat) : String :=
  "[line " ++ toString (lines + 1) ++ "] Error: Unterminated string."

def unexpectedCharMsg (lines : Nat) (c : Char) : String :=
  "[line " ++ toString (lines + 1) ++ "] Error: Unexpected character: "
    ++ String.mk [c]

def unknownKeywordMsg (lines : Nat) (s : String) : String :=
  "[line " ++ toString (lines + 1) ++ "] Error: Unknown keyword: " ++ s

/-- Outcome of the string-literal inner loop. -/
inductive StrRes where
  | strTok (s : String) (st : Lexing)
  | unterminated (st : Lexing)
  | panicked
  | fuelOut
  deriving DecidableEq, Repr

/-- The inner `while` of the two string branches of `Lexing::next`
(lexer.rs lines 145-183 and 193-231), parameterised by the delimiter and
its escape map.  One iteration: an optional escape prefix (two
`get_char`s, the second unguarded — this is the panic site), then a peek
that either closes the string or pushes one raw character. -/
def lexStr (quote : Char) (esc : Char → Option Char) :
    Nat → Lexing → String → StrRes
  | 0, _, _ => .fuelOut
  | fuel + 1, st, s =>
      if st.l > st.position then
        let c := st.peek
        let step : Option (Lexing × String) :=
          if c = '\\' then
            match st.getChar with
            | none => none
            | some (_, st1) =>
                match st1.getChar with
                | none => none
                | some (c2, st2) =>
                    match esc c2 with
                    | some mapped => some (st2, s.push mapped)
                    | none =>
                        some (st2.pushError (unknownEscapeMsg st2.lines c2), s)
          else some (st, s)
        match step with
        | none => .panicked
        | some (st3, s3) =>
            let c' := st3.peek
            if c' = quote then
              match st3.getChar with
              | none => .panicked
              | some (_, st4) => .strTok s3 st4
            else
              match st3.getChar with
              | none => .panicked
              | some (ch, st4) => lexStr quote esc fuel st4 (s3.push ch)
      else .unterminated st

/-- The number branch of `Lexing::next` (lexer.rs lines 238-251).
Rust `char::is_numeric` is embedded as `Char.isDigit`; the sources only
feed ASCII digits here. -/
def lexNumber : Nat → Lexing → String → Token × Lexing
  | 0, st, s => (.number s, st)
  | fuel + 1, st, s =>
      if st.l > st.position then
        let c := st.peek
        if c.isDigit then
          match st.getChar with
          | none => (.number s, st)
          | some (ch, st') => lexNumber fuel st' (s.push ch)
        else if c = '.' ∧ (st.peekN 2).isDigit then
          match st.getChar with
          | none => (.number s, st)
          | some (ch, st') => lexNumber fuel st' (s.push ch)
        else (.number s, st)
      else (.number s, st)

/-- The identifier loop of `Lexing::next` (lexer.rs lines 317-326):
collects `[A-Za-z_0-9]*` characters.  Rust `is_alphabetic`/`is_numeric`
are embedded as `Char.isAlpha`/`Char.isDigit`. -/
def lexIdentChars : Nat → Lexing → String → String × Lexing
  | 0, st, s => (s, st)
  | fuel + 1, st, s =>
      if st.l > st.position then
        let c := st.peek
        if c.isAlpha ∨ c = '_' ∨ c.isDigit then
          match st.getChar with
          | none => (s, st)
          | some (ch, st') => lexIdentChars fuel st' (s.push ch)
        else (s, st)
      else (s, st)

/-- The comment loop of the `/` branch (lexer.rs lines 286-297). -/
def lexComment : Nat → Lexing → String → Token × Lexing
  | 0, st, s => (.comment s, st)
  | fuel + 1, st, s =>
      if st.l > st.position then
        let c := st.peek
        if c = '\n' then
          match st.getChar with
          | none => (.comment s, st)
          | some (_, st') => (.comment s, st')
        else
          match st.getChar with
          | none => (.comment s, st)
          | some (ch, st') => lexComment fuel st' (s.push ch)
      else (.comment s, st)

/-- One-character consume returning the given token. -/
def lexSimple (st : Lexing) (t : Token) : NextRes :=
  match st.getChar with
  | none => .panicked
  | some (_, st') => .tok t st'

/-- Consume one character, then if the next equals `c2` consume it too and
return `twoTok`, else return `oneTok` (the `==`/`!=`/`<=`/`>=`/`||`/`&&`
pattern). -/
def lexPair (st : Lexing) (c2 : Char) (twoTok oneTok : Token) : NextRes :=
  match st.getChar with
  | none => .panicked
  | some (_, st') =>
      if st'.peek = c2 then
        match st'.getChar with
        | none => .panicked
        | some (_, st'') => .tok twoTok st''
      else .tok oneTok st'

/-- `Lexing::next` (lexer.rs lines 82-363).  The outer `while` is the
fuel recursion; arms that `continue` (whitespace, unexpected character,
unterminated string, the dead unknown-keyword branch) recurse. -/
def Lexing.next : Nat → Lexing → NextRes
  | 0, _ => .fuelOut
  | fuel + 1, st =>
      if st.l > st.position then
        let c := st.peek
        if c = ' ' ∨ c = '\n' ∨ c = '\t' then
          match st.getChar with
          | none => .panicked
          | some (_, st') => Lexing.next fuel st'
        else if c = '=' then lexPair st '=' .equalEqual .equal
        else if c = ';' then lexSimple st .semicolon
        else if c = '!' then lexPair st '=' .bangEqual .bang
        else if c = '|' then lexPair st '|' .orT .bitOr
        else if c = '&' then lexPair st '&' .andT .bitAnd
        else if c = '<' then lexPair st '=' .lessEqual .less
        else if c = '>' then lexPair st '=' .greaterEqual .greater
        else if c = '\'' then
          match st.getChar with
          | none => .panicked
          | some (_, st') =>
              match lexStr '\'' escSingle fuel st' "" with
              | .strTok s st'' => .tok (.stringT s) st''
              | .unterminated st'' =>
                  Lexing.next fuel (st''.pushError (unterminatedMsg st''.lines))
              | .panicked => .panicked
              | .fuelOut => .fuelOut
        else if c = '"' then
          match st.getChar with
          | none => .panicked
          | some (_, st') =>
              match lexStr '"' escDouble fuel st' "" with
              | .strTok s st'' => .tok (.stringT s) st''
              | .unterminated st'' =>
                  Lexing.next fuel (st''.pushError (unterminatedMsg st''.lines))
              | .panicked => .panicked
              | .fuelOut => .fuelOut
        else if '0' ≤ c ∧ c ≤ '9' then
          let (t, st') := lexNumber fuel st ""
          .tok t st'
        else if c = '(' then lexSimple st .leftParen
        else if c = ')' then lexSimple st .rightParen
        else if c = '{' then lexSimple st .leftBrace
        else if c = '}' then lexSimple st .rightBrace
        else if c = ':' then lexSimple st .colon
        else if c = '[' then lexSimple st .leftBracket
        else if c = ']' then lexSimple st .rightBracket
        else if c = '*' then lexSimple st .star
        else if c = '/' then
          match st.getChar with
          | none => .panicked
          | some (_, st') =>
              if st'.peek = '/' then
                match st'.getChar with
                | none => .panicked
                | some (_, st'') =>
                    let (t, st3) := lexComment fuel st'' ""
                    .tok t st3
              else .tok .slash st'
        else if c = '-' then lexSimple st .minus
        else if c = '+' then lexSimple st .plus
        else if c = ',' then lexSimple st .comma
        else if c = '.' then lexSimple st .dot
        else if ('a' ≤ c ∧ c ≤ 'z') ∨ ('A' ≤ c ∧ c ≤ 'Z') ∨ c = '_' then
          let (s, st') := lexIdentChars fuel st ""
          if Lexing.isKeyword s then
            match keywords.lookup (toLowerStr s) with
            | some t => .tok t st'
            | none =>
                Lexing.next fuel (st'.pushError (unknownKeywordMsg st'.lines s))
          else .tok (.identifier s) st'
        else
          match st.getChar with
          | none => .panicked
          | some (ch, st') =>
              Lexing.next fuel (st'.pushError (unexpectedCharMsg st'.lines ch))
      else .tok .eof st

/-- First token of a source string, with fuel amply larger than the input. -/
def firstToken (input : String) : NextRes :=
  Lexing.next (input.length + 2) (Lexing.new input)

/-! ## AST (ast.rs).  `Ident` is a newtype over `String` and is embedded
as `String` directly. -/

mutual

inductive Literal where
  | number (n : Rat)
  | stringL (s : String)
  | boolL (b : Bool)
  | indexL (i : Nat)
  | arrayL (xs : List ExprType)
  | hashL (xs : List (ExprType × ExprType))
  | nilL

inductive ExprType where
  | identE (name : String)
  | thisExpr (name : String)
  | literal (l : Literal)
  | groupingExpr (e : ExprType)
  | unaryExpr (op : Token) (e : ExprType)
  | prefixExpr (op : Token) (e : ExprType)
  | infixExpr (l : ExprType) (op : Token) (r : ExprType)
  | printExpr (es : List ExprType)
  | indexExpr (target : ExprType) (idx : ExprType)
  | ifE (condition : ExprType) (elseif : List (ExprType × List Stmt))
        (thenBranch : List Stmt) (elseBranch : List Stmt)
  | functionE (params : List String) (body : List Stmt)
  | call (callee : ExprType) (args : List ExprType)
  | classInit (name : String) (args : List ExprType)
  | classCall (callee : String) (method : String) (args : List ExprType)
  | classGet (callee : String) (prop : String)
  | thisCall (method : String) (args : List ExprType)

inductive Stmt where
  | blank
  | var (name : String) (e : ExprType)
  | exprS (e : ExprType)
  | block (stmts : List Stmt)
  | returnS (e : ExprType)
  | function (name : String) (args : List String) (body : List Stmt)
  | switch (e : ExprType) (cases : List Stmt)
  | case (e : ExprType) (body : List Stmt)
  | defaultS (body : List Stmt)
  | whileS (cond : ExprType) (body : List Stmt)
  | importS (name : String)
  | classStmt (name : String) (properties : List Stmt)
  | forS (init : Stmt) (conditions : ExprType) (step : Stmt) (body : List Stmt)
  | forIn (varS : Stmt) (iter : ExprType) (body : List Stmt)
  | classInitS (name : String) (args : List ExprType)
  | assert (condition : ExprType) (message : ExprType)
  | assign (target : ExprType) (value : ExprType)

end

/-- A program is the parsed statement list (`ast::Progam`). -/
abbrev Program := List Stmt

/-- Modelled from the spec: the `Opcode` enum.  The module `opcode` is
absent from the sources; the variants and their payloads follow spec
§4.9 together with every construction and match of `Opcode` in
compiler.rs and vm.rs (`Abs`, `DefineGlobal`, `TailCall` appear only in
vm.rs). -/
inductive Opcode where
  | loadConstant (i : Nat)
  | pop
  | add
  | minus
  | multiply
  | divide
  | mod
  | lessThan
  | greaterThan
  | equalEqual
  | nagetive
  | abs
  | print (n : Nat)
  | defineGlobal (s : String)
  | getGlobal (i : Nat)
  | setGlobal (i : Nat)
  | getLocal (i : Nat)
  | setLocal (i : Nat)
  | getFree (i : Nat)
  | getBuiltin (i : Nat)
  | call (n : Nat)
  | closure (i : Nat) (numFree : Nat)
  | tailCall (n : Nat)
  | jump (p : Nat)
  | jumpIfFalse (p : Nat)
  | returnValue
  | returnOp
  | assert (p : Nat)
  | exit (code : Nat)
  | currentClosure
  deriving Repr

/-- Constructor tag of an opcode (used only to decide opcode equality
with a shallow term, in place of the derived instance). -/
def Opcode.tag : Opcode → Nat
  | .loadConstant _ => 0
  | .pop => 1
  | .add => 2
  | .minus => 3
  | .multiply => 4
  | .divide => 5
  | .mod => 6
  | .lessThan => 7
  | .greaterThan => 8
  | .equalEqual => 9
  | .nagetive => 10
  | .abs => 11
  | .print _ => 12
  | .defineGlobal _ => 13
  | .getGlobal _ => 14
  | .setGlobal _ => 15
  | .getLocal _ => 16
  | .setLocal _ => 17
  | .getFree _ => 18
  | .getBuiltin _ => 19
  | .call _ => 20
  | .closure _ _ => 21
  | .tailCall _ => 22
  | .jump _ => 23
  | .jumpIfFalse _ => 24
  | .returnValue => 25
  | .returnOp => 26
  | .assert _ => 27
  | .exit _ => 28
  | .currentClosure => 29

/-- First numeric payload of an opcode (0 when absent). -/
def Opcode.pay1 : Opcode → Nat
  | .loadConstant i => i
  | .print n => n
  | .getGlobal i => i
  | .setGlobal i => i
  | .getLocal i => i
  | .setLocal i => i
  | .getFree i => i
  | .getBuiltin i => i
  | .call n => n
  | .closure i _ => i
  | .tailCall n => n
  | .jump p => p
  | .jumpIfFalse p => p
  | .assert p => p
  | .exit c => c
  | _ => 0

/-- Second numeric payload of an opcode (0 when absent). -/
def Opcode.pay2 : Opcode → Nat
  | .closure _ j => j
  | _ => 0

/-- String payload of an opcode (empty when absent). -/
def Opcode.payS : Opcode → String
  | .defineGlobal s => s
  | _ => ""

/-- Inverse of the `(tag, pay1, pay2, payS)` encoding. -/
def Opcode.decode : Nat → Nat → Nat → String → Opcode
  | 0, i, _, _ => .loadConstant i
  | 1, _, _, _ => .pop
  | 2, _, _, _ => .add
  | 3, _, _, _ => .minus
  | 4, _, _, _ => .multiply
  | 5, _, _, _ => .divide
  | 6, _, _, _ => .mod
  | 7, _, _, _ => .lessThan
  | 8, _, _, _ => .greaterThan
  | 9, _, _, _ => .equalEqual
  | 10, _, _, _ => .nagetive
  | 11, _, _, _ => .abs
  | 12, n, _, _ => .print n
  | 13, _, _, s => .defineGlobal s
  | 14, i, _, _ => .getGlobal i
  | 15, i, _, _ => .setGlobal i
  | 16, i, _, _ => .getLocal i
  | 17, i, _, _ => .setLocal i
  | 18, i, _, _ => .getFree i
  | 19, i, _, _ => .getBuiltin i
  | 20, n, _, _ => .call n
  | 21, i, j, _ => .closure i j
  | 22, n, _, _ => .tailCall n
  | 23, p, _, _ => .jump p
  | 24, p, _, _ => .jumpIfFalse p
  | 25, _, _, _ => .returnValue
  | 26, _, _, _ => .returnOp
  | 27, p, _, _ => .assert p
  | 28, c, _, _ => .exit c
  | _, _, _, _ => .currentClosure

instance : DecidableEq Opcode := fun a b =>
  decidable_of_iff (a.tag = b.tag ∧ a.pay1 = b.pay1 ∧ a.pay2 = b.pay2
      ∧ a.payS = b.payS)
    ⟨fun h => by
      have ha : Opcode.decode a.tag a.pay1 a.pay2 a.payS = a := by
        cases a <;> rfl
      have hb : Opcode.decode b.tag b.pay1 b.pay2 b.payS = b := by
        cases b <;> rfl
      rw [← ha, h.1, h.2.1, h.2.2.1, h.2.2.2, hb],
     fun h => by rw [h]; exact ⟨rfl, rfl, rfl, rfl⟩⟩

/-! ## Runtime values (objects.rs `Object`, plus the `CompiledFunction`
variant that compiler.rs constructs; the snapshot of objects.rs omits
it).  Shared-mutable payloads (`Rc<RefCell<…>>` hashes and class
instances) are embedded as heap addresses, and the `Builtin` function
pointer is externalised: a builtin value carries its name and arity and
its behaviour lives in separate registry functions.  `f64` is `Rat`. -/

inductive Obj where
  | boolean (b : Bool)
  | nil
  | number (n : Rat)
  | index (i : Nat)
  | stringO (s : String)
  | arrayO (xs : List Obj)
  | returnValueO (o : Obj)
  | hashO (addr : Nat)
  | builtin (name : String) (argc : Int)
  | functionO (params : List String) (body : List Stmt)
  | classO (name : String) (properties : List Stmt)
  | classInstance (name : String) (fieldsAddr : Nat) (propertiesAddr : Nat)
  | compiledFunction (instructions : List Opcode) (numLocals : Nat)
      (numParameters : Nat)

/-- `HashMap::insert` on a string-keyed map embedded as an association
list with unique keys: replace the existing entry or append. -/
def mapInsert {α : Type} (m : List (String × α)) (k : String) (v : α) :
    List (String × α) :=
  match m with
  | [] => [(k, v)]
  | (k', v') :: rest =>
      if k' = k then (k, v) :: rest else (k', v') :: mapInsert rest k v

/-! ## Environment (envs.rs).  `outer` is `Option<Rc<RefCell<Env>>>`;
single-threaded mutation through the chain is embedded by rebuilding the
chain. -/

inductive Env where
  | mk (store : List (String × Obj)) (outer : Option Env)
       (currentClass : Option Obj)

def Env.new : Env := .mk [] none none

def Env.newWithOuter (outer : Env) : Env := .mk [] (some outer) none

def Env.store : Env → List (String × Obj)
  | .mk s _ _ => s

def Env.outer : Env → Option Env
  | .mk _ o _ => o

/-- `Env::get` (envs.rs lines 39-47): consult the store, else recurse
into the outer environment. -/
def Env.get : Env → String → Option Obj
  | .mk store outer _, name =>
      match store.lookup name with
      | some value => some value
      | none =>
          match outer with
          | some o => o.get name
          | none => none

/-- `Env::set` (envs.rs lines 49-64): when an outer environment exists,
the source inspects only that immediate outer store — it updates there
when that store contains the name and otherwise inserts into the current
store; with no outer it inserts into the current store. -/
def Env.set : Env → String → Obj → Env
  | .mk store outer cc, name, value =>
      match outer with
      | some (.mk ostore oouter occ) =>
          if (ostore.lookup name).isSome then
            .mk store (some (.mk (mapInsert ostore name value) oouter occ)) cc
          else
            .mk (mapInsert store name value) (some (.mk ostore oouter occ)) cc
      | none => .mk (mapInsert store name value) none cc

def Env.setStore : Env → String → Obj → Env
  | .mk store outer cc, name, value =>
      .mk (mapInsert store name value) outer cc

def Env.setCurrentClass : Env → Obj → Env
  | .mk store outer _, class0 => .mk store outer (some class0)

def Env.getCurrentClass : Env → Option Obj
  | .mk _ _ cc => cc

def Env.resetCurrentClass : Env → Env
  | .mk store outer _ => .mk store outer none

/-- Follows the claim's words, for comparison with `Env.set`: assignment
walks outward through all enclosing scopes and updates the closest scope
that already binds the name; only when no scope at any depth binds it is
a new binding created in the innermost scope. -/
def envSetSpec : Env → String → Obj → Env
  | .mk store outer cc, name, value =>
      if (store.lookup name).isSome then
        .mk (mapInsert store name value) outer cc
      else
        match outer with
        | some o =>
            if (o.get name).isSome then
              .mk store (some (envSetSpec o name value)) cc
            else
              .mk (mapInsert store name value) (some o) cc
        | none => .mk (mapInsert store name value) none cc

/-! ## Builtin registry (builtins.rs).  `new_builtins` inserts these
thirteen `(name, arity, fn)` records; the function pointers are
externalised (no property below invokes a builtin body). -/

def newBuiltins : List (String × Obj) :=
  [ ("print", .builtin "print" 1),
    ("len", .builtin "len" 1),
    ("start_with", .builtin "start_with" 2),
    ("println", .builtin "println" (-1)),
    ("substr", .builtin "substr" 3),
    ("typeis", .builtin "typeis" 1),
    ("append", .builtin "append" (-1)),
    ("intval", .builtin "intval" 1),
    ("is_str", .builtin "is_str" 1),
    ("is_number", .builtin "is_number" 1),
    ("strval", .builtin "strval" 1),
    ("trim", .builtin "trim" 1),
    ("type", .builtin "type" 1) ]

/-- `Builtins::new` sorts the map keys; `get_index` looks a name up in
the sorted key list (builtins.rs lines 13-32). -/
def builtinSortedNames : List String :=
  sortStrs (newBuiltins.map Prod.fst)

def builtinsGetIndex (name : String) : Option Nat :=
  builtinSortedNames.indexOf? name

/-- `Display for Object` (objects.rs lines 42-102), restricted to the
variants whose text the properties below observe.  `f64` display and the
composite variants are outside the fragment (`none`); no theorem below
evaluates the formatter on them. -/
def fmtObj : Obj → Option String
  | .boolean b => some (if b then "true" else "false")
  | .nil => some "nil"
  | .stringO s => some s
  | .index i => some (toString i)
  | .returnValueO o => fmtObj o
  | _ => none

/-! ## Tree-walk evaluator (evaluator.rs).  State carries the
environment cursor, the ordered trace of stdout writes (one list entry
per `print!`/`println!` call, the latter with a trailing newline), and
the `output` flag of `Evaluator::new`.  Results: `ok st v` is a normal
return of `v : Option<Object>`; `exitR code st` is `process::exit`;
`panicked` is a source panic (`unwrap`, `panic!`, `unimplemented!`);
`unmodelled` marks source paths outside this fragment (class/hash heap
mutation, builtin bodies, `f64`/Debug formatting, HashMap-ordered
parameter binding); `fuelOut` is fuel exhaustion of the embedding. -/

structure EvalState where
  envs : Env
  output : List String
  outFlag : Bool

def EvalState.write (st : EvalState) (s : String) : EvalState :=
  ⟨st.envs, st.output ++ [s], st.outFlag⟩

def EvalState.writeLn (st : EvalState) (s : String) : EvalState :=
  ⟨st.envs, st.output ++ [s ++ "\n"], st.outFlag⟩

def EvalState.withEnvs (st : EvalState) (e : Env) : EvalState :=
  ⟨e, st.output, st.outFlag⟩

inductive ERes where
  | ok (st : EvalState) (v : Option Obj)
  | exitR (code : Nat) (st : EvalState)
  | panicked
  | unmodelled
  | fuelOut

/-- Outcome of one already-evaluated infix operation: a value, the
strict `exit(70)`, or a panic. -/
inductive ERes' where
  | val (o : Obj)
  | exit70
  | panic

/-- The `Token::EqualEqual` arm of `evaluate_expr`
(evaluator.rs lines 449-468) applied to the two already-evaluated
operands; `none` operands are unwrapped exactly where the source
unwraps them. -/
def evalEqEq (lOpt rOpt : Option Obj) : ERes' :=
  match lOpt with
  | none => .panic
  | some lv =>
      match lv with
      | .number a =>
          match rOpt with
          | none => .panic
          | some (.number b) => .val (.boolean (a = b))
          | some _ => .val (.boolean false)
      | .boolean a =>
          match rOpt with
          | none => .panic
          | some (.boolean b) => .val (.boolean (a = b))
          | some _ => .val (.boolean false)
      | .stringO a =>
          match rOpt with
          | none => .panic
          | some (.stringO b) => .val (.boolean (a = b))
          | some _ => .val (.boolean false)
      | .nil =>
          match rOpt with
          | none => .panic
          | some .nil => .val (.boolean true)
          | some _ => .val (.boolean false)
      | _ => .val (.boolean false)

/-- The `Token::BangEqual` arm (evaluator.rs lines 469-484): the
`Nil`-with-`Nil` case of the `==` arm has no counterpart here, so every
pair outside the three matched kinds — including two `Nil`s and any
kind mismatch — falls through to `Boolean(false)`. -/
def evalBangEq (lOpt rOpt : Option Obj) : ERes' :=
  match lOpt with
  | none => .panic
  | some lv =>
      match lv with
      | .number a =>
          match rOpt with
          | none => .panic
          | some (.number b) => .val (.boolean (a ≠ b))
          | some _ => .val (.boolean false)
      | .boolean a =>
          match rOpt with
          | none => .panic
          | some (.boolean b) => .val (.boolean (a ≠ b))
          | some _ => .val (.boolean false)
      | .stringO a =>
          match rOpt with
          | none => .panic
          | some (.stringO b) => .val (.boolean (a ≠ b))
          | some _ => .val (.boolean false)
      | _ => .val (.boolean false)

/-- The ordering arms `Less`/`LessEqual`/`Greater`/`GreaterEqual`
(evaluator.rs lines 485-516): both operands must be numbers, anything
else is `exit(70)`. -/
def evalOrd (cmp : Rat → Rat → Bool) (lOpt rOpt : Option Obj) : ERes' :=
  match lOpt with
  | none => .panic
  | some (.number a) =>
      match rOpt with
      | none => .panic
      | some (.number b) => .val (.boolean (cmp a b))
      | some _ => .exit70
  | some _ => .exit70

/-- The arithmetic arms `Star`/`Slash`/`Minus`
(evaluator.rs lines 517-540). -/
def evalArith (f : Rat → Rat → Rat) (lOpt rOpt : Option Obj) : ERes' :=
  match lOpt with
  | none => .panic
  | some (.number a) =>
      match rOpt with
      | none => .panic
      | some (.number b) => .val (.number (f a b))
      | some _ => .exit70
  | some _ => .exit70

/-- The `Plus` arm (evaluator.rs lines 541-552): numeric addition or
string concatenation; every other combination is the
`panic!("token plus not found …")` path. -/
def evalPlus (lOpt rOpt : Option Obj) : ERes' :=
  match lOpt with
  | none => .panic
  | some (.number a) =>
      match rOpt with
      | some (.number b) => .val (.number (a + b))
      | _ => .panic
  | some (.stringO a) =>
      match rOpt with
      | some (.stringO b) => .val (.stringO (a ++ b))
      | _ => .panic
  | some _ => .panic

/-- The `And`/`Or` arms (evaluator.rs lines 553-568): both operands must
be booleans, anything else is `exit(70)`. -/
def evalBoolOp (f : Bool → Bool → Bool) (lOpt rOpt : Option Obj) : ERes' :=
  match lOpt with
  | none => .panic
  | some (.boolean a) =>
      match rOpt with
      | none => .panic
      | some (.boolean b) => .val (.boolean (f a b))
      | some _ => .exit70
  | some _ => .exit70

def liftERes (st : EvalState) : ERes' → ERes
  | .val o => .ok st (some o)
  | .exit70 => .exitR 70 st
  | .panic => .panicked

/-- Rust `f64 %` is the truncated remainder; on the rational embedding:
`a - b * trunc (a / b)` (only the compound-assign `%=` arm uses it). -/
def ratFmod (a b : Rat) : Rat :=
  a - b * ((if 0 ≤ a / b then (a / b).floor else (a / b).ceil : Int) : Rat)

/-- The arithmetic applied by a compound-assign arm
(evaluator.rs lines 363-442). -/
def selfOpApply (op : Token) (ln rn : Rat) : Rat :=
  match op with
  | .minusSelf => ln - rn
  | .plusSelf => ln + rn
  | .starSelf => ln * rn
  | .slashSelf => ln / rn
  | _ => ratFmod ln rn

/-- Restore `self.envs = current_env` after a child scope: the saved
`Rc` handle is recovered as the child's outer link, which carries every
mutation the child performed through the chain.  The fragment only
restores environments that were created with an outer link. -/
def EvalState.restoreOuter (st : EvalState) : Option EvalState :=
  match st.envs.outer with
  | some o => some (st.withEnvs o)
  | none => none

mutual

/-- `Evaluator::evaluate_stmt` (evaluator.rs lines 34-224), on the
statement fragment the properties below exercise; the class, loop and
switch arms mutate shared heap cells or iterate hash maps and are
outside the fragment (`unmodelled`). -/
def evalStmt : Nat → EvalState → Stmt → ERes
  | 0, _, _ => .fuelOut
  | fuel + 1, st, stmt =>
      match stmt with
      | .var name e =>
          match evalExpr fuel st e with
          | .ok st1 (some obj) =>
              .ok (st1.withEnvs (st1.envs.setStore name obj)) none
          | .ok _ none => .panicked
          | r => r
      | .exprS e =>
          match evalExpr fuel st e with
          | .ok st1 (some (.returnValueO obj)) => .ok st1 (some obj)
          | .ok st1 _ => .ok st1 none
          | r => r
      | .block stmts =>
          runBlock fuel (st.withEnvs (Env.newWithOuter st.envs)) stmts
      | .returnS e =>
          match evalExpr fuel st e with
          | .ok st1 (some obj) =>
              if st1.outFlag then
                match fmtObj obj with
                | some s => .ok (st1.writeLn s) (some obj)
                | none => .unmodelled
              else .ok st1 (some obj)
          | .ok _ none => .panicked
          | r => r
      | .function name args body =>
          .ok (st.withEnvs (st.envs.setStore name (.functionO args body))) none
      | .blank => .ok st none
      | .importS _ => .ok st none
      | .classStmt name properties =>
          .ok (st.withEnvs (st.envs.set name (.classO name properties))) none
      | .assign target value =>
          match target with
          | .identE name =>
              match evalExpr fuel st value with
              | .ok st1 (some obj) =>
                  .ok (st1.withEnvs (st1.envs.set name obj)) (some obj)
              | .ok _ none => .panicked
              | r => r
          | .indexExpr _ _ => .unmodelled
          | .thisExpr _ => .unmodelled
          | _ => .panicked
      | _ => .unmodelled

/-- The statement loop of `Stmt::Block` (evaluator.rs lines 49-70): the
state's environment is the freshly created child; `Stmt::Return` and any
`Some` result restore the saved environment and propagate. -/
def runBlock : Nat → EvalState → List Stmt → ERes
  | 0, _, _ => .fuelOut
  | fuel + 1, st, stmts =>
      match stmts with
      | [] =>
          match st.restoreOuter with
          | some st' => .ok st' none
          | none => .unmodelled
      | stmt :: rest =>
          match stmt with
          | .returnS e =>
              match evalExpr fuel st e with
              | .ok st1 (some obj) =>
                  match st1.restoreOuter with
                  | some st' => .ok st' (some obj)
                  | none => .unmodelled
              | .ok _ none => .panicked
              | r => r
          | _ =>
              match evalStmt fuel st stmt with
              | .ok st1 (some v) =>
                  match st1.restoreOuter with
                  | some st' => .ok st' (some v)
                  | none => .unmodelled
              | .ok st1 none => runBlock fuel st1 rest
              | r => r

/-- The branch-body loop of the `ExprType::If` arm
(evaluator.rs lines 591-604 and its two copies): a `Stmt::Return` wraps
its value in `ReturnValue`; any other `Some` result propagates as-is;
`ok st none` means the body completed normally. -/
def runIfBranch : Nat → EvalState → List Stmt → ERes
  | 0, _, _ => .fuelOut
  | fuel + 1, st, stmts =>
      match stmts with
      | [] => .ok st none
      | stmt :: rest =>
          match stmt with
          | .returnS e =>
              match evalExpr fuel st e with
              | .ok st1 (some obj) => .ok st1 (some (.returnValueO obj))
              | .ok _ none => .panicked
              | r => r
          | _ =>
              match evalStmt fuel st stmt with
              | .ok st1 (some v) => .ok st1 (some v)
              | .ok st1 none => runIfBranch fuel st1 rest
              | r => r

/-- The `else if` loop and `else` fallback of the `ExprType::If` arm
(evaluator.rs lines 606-644). -/
def runElseifs : Nat → EvalState → List (ExprType × List Stmt) →
    List Stmt → ERes
  | 0, _, _, _ => .fuelOut
  | fuel + 1, st, chain, elseB =>
      match chain with
      | [] => runIfBranch fuel st elseB
      | (cond, block) :: rest =>
          match evalExpr fuel st cond with
          | .ok st1 (some (.boolean true)) => runIfBranch fuel st1 block
          | .ok st1 (some _) => runElseifs fuel st1 rest elseB
          | .ok _ none => .panicked
          | r => r

/-- The element loop of the `PrintExpr` arm (evaluator.rs lines
575-581): each value is written with `print!("{}", object)` — no
separator, no newline — in left-to-right order. -/
def runPrint : Nat → EvalState → List ExprType → ERes
  | 0, _, _ => .fuelOut
  | fuel + 1, st, es =>
      match es with
      | [] => .ok st (some .nil)
      | e :: rest =>
          match evalExpr fuel st e with
          | .ok st1 (some obj) =>
              match fmtObj obj with
              | some s => runPrint fuel (st1.write s) rest
              | none => .unmodelled
          | .ok _ none => .panicked
          | r => r

/-- The element loop of the array-literal arm
(evaluator.rs lines 255-261). -/
def evalArrayLit : Nat → EvalState → List ExprType → List Obj → ERes
  | 0, _, _, _ => .fuelOut
  | fuel + 1, st, es, acc =>
      match es with
      | [] => .ok st (some (.arrayO acc))
      | e :: rest =>
          match evalExpr fuel st e with
          | .ok st1 (some obj) => evalArrayLit fuel st1 rest (acc ++ [obj])
          | .ok _ none => .panicked
          | r => r

/-- `Evaluator::evaluate_expr` (evaluator.rs lines 248-874) on the
expression fragment the properties below exercise; class access, hash
and index expressions, and calls (whose parameter binding iterates a
HashMap in unspecified order, and whose builtin bodies live behind
externalised function pointers) are outside the fragment. -/
def evalExpr : Nat → EvalState → ExprType → ERes
  | 0, _, _ => .fuelOut
  | fuel + 1, st, e =>
      match e with
      | .literal lit =>
          match lit with
          | .number n => .ok st (some (.number n))
          | .boolL b => .ok st (some (.boolean b))
          | .nilL => .ok st (some .nil)
          | .stringL s => .ok st (some (.stringO s))
          | .indexL i => .ok st (some (.index i))
          | .arrayL xs => evalArrayLit fuel st xs []
          | .hashL _ => .unmodelled
      | .identE name =>
          match newBuiltins.lookup name with
          | some b => .ok st (some b)
          | none =>
              match st.envs.get name with
              | some v => .ok st (some v)
              | none =>
                  .exitR 70
                    (st.writeLn ("Undefined variable '" ++ name ++ "'."))
      | .groupingExpr e1 => evalExpr fuel st e1
      | .prefixExpr op e1 =>
          match evalExpr fuel st e1 with
          | .ok st1 (some v) =>
              match op with
              | .minus =>
                  match v with
                  | .number n => .ok st1 (some (.number (-n)))
                  | _ => .exitR 70 st1
              | .bang =>
                  match v with
                  | .boolean b => .ok st1 (some (.boolean (!b)))
                  | .nil => .ok st1 (some (.boolean true))
                  | .number n => .ok st1 (some (.boolean (n = 0)))
                  | .stringO s => .ok st1 (some (.boolean s.isEmpty))
                  | .returnValueO inner =>
                      match inner with
                      | .boolean b => .ok st1 (some (.boolean (!b)))
                      | .nil => .ok st1 (some (.boolean true))
                      | .number n => .ok st1 (some (.boolean (n = 0)))
                      | .stringO s => .ok st1 (some (.boolean s.isEmpty))
                      | _ => .panicked
                  | _ => .ok st1 none
              | _ => .panicked
          | .ok _ none => .panicked
          | r => r
      | .infixExpr l op r => evalInfix fuel st l op r
      | .printExpr es => runPrint fuel st es
      | .ifE cond elseif thenB elseB =>
          match evalExpr fuel st cond with
          | .ok st1 (some (.boolean true)) =>
              match runIfBranch fuel st1 thenB with
              | .ok st2 none => .ok st2 (some .nil)
              | r => r
          | .ok st1 (some (.boolean false)) =>
              match runElseifs fuel st1 elseif elseB with
              | .ok st2 none => .ok st2 (some .nil)
              | r => r
          | .ok st1 (some _) => .ok st1 (some .nil)
          | .ok _ none => .panicked
          | r => r
      | .functionE params body => .ok st (some (.functionO params body))
      | .call callee _ =>
          match evalExpr fuel st callee with
          | .ok _ (some (.builtin _ _)) => .unmodelled
          | .ok _ (some (.functionO _ _)) => .unmodelled
          | .ok _ _ => .panicked
          | r => r
      | .thisCall _ _ => .unmodelled
      | .classInit _ _ => .unmodelled
      | .classCall _ _ _ => .unmodelled
      | .thisExpr _ => .unmodelled
      | .classGet _ _ => .unmodelled
      | .indexExpr _ _ => .unmodelled
      | .unaryExpr _ _ => .unmodelled

/-- The `InfixExpr` arm (evaluator.rs lines 317-574): the `=` special
cases, the compound-assign arms, then evaluation of both operands
followed by the operator dispatch. -/
def evalInfix : Nat → EvalState → ExprType → Token → ExprType → ERes
  | 0, _, _, _, _ => .fuelOut
  | fuel + 1, st, l, op, r =>
      if op = .equal then
        match l with
        | .identE name =>
            match evalExpr fuel st r with
            | .ok st1 (some obj) =>
                .ok (st1.withEnvs (st1.envs.set name obj)) (some obj)
            | .ok _ none => .panicked
            | r' => r'
        | .indexExpr _ _ => .unmodelled
        | .thisExpr _ => .unmodelled
        | _ => evalInfixOps fuel st l op r
      else if op = .minusSelf ∨ op = .plusSelf ∨ op = .starSelf ∨
          op = .slashSelf ∨ op = .modSelf then
        match l with
        | .identE name =>
            match evalExpr fuel st r with
            | .ok st1 (some (.number rn)) =>
                match st1.envs.get name with
                | some (.number ln) =>
                    let res := Obj.number (selfOpApply op ln rn)
                    .ok (st1.withEnvs (st1.envs.set name res)) (some res)
                | _ => .panicked
            | .ok _ (some _) => .panicked
            | .ok _ none => .panicked
            | r' => r'
        | _ => .ok st (some .nil)
      else evalInfixOps fuel st l op r

/-- Operand evaluation and operator dispatch of the `InfixExpr` arm
(evaluator.rs lines 446-573); the catch-all arm prints a debug line and
panics (`unimplemented!`), embedded as a panic. -/
def evalInfixOps : Nat → EvalState → ExprType → Token → ExprType → ERes
  | 0, _, _, _, _ => .fuelOut
  | fuel + 1, st, l, op, r =>
      match evalExpr fuel st l with
      | .ok st1 lOpt =>
          match evalExpr fuel st1 r with
          | .ok st2 rOpt =>
              match op with
              | .equalEqual => liftERes st2 (evalEqEq lOpt rOpt)
              | .bangEqual => liftERes st2 (evalBangEq lOpt rOpt)
              | .less => liftERes st2 (evalOrd (fun a b => decide (a < b)) lOpt rOpt)
              | .lessEqual => liftERes st2 (evalOrd (fun a b => decide (a ≤ b)) lOpt rOpt)
              | .greater => liftERes st2 (evalOrd (fun a b => decide (b < a)) lOpt rOpt)
              | .greaterEqual => liftERes st2 (evalOrd (fun a b => decide (b ≤ a)) lOpt rOpt)
              | .star => liftERes st2 (evalArith (fun a b => a * b) lOpt rOpt)
              | .slash => liftERes st2 (evalArith (fun a b => a / b) lOpt rOpt)
              | .minus => liftERes st2 (evalArith (fun a b => a - b) lOpt rOpt)
              | .plus => liftERes st2 (evalPlus lOpt rOpt)
              | .andT => liftERes st2 (evalBoolOp (fun a b => a && b) lOpt rOpt)
              | .orT => liftERes st2 (evalBoolOp (fun a b => a || b) lOpt rOpt)
              | _ => .panicked
          | r' => r'
      | r' => r'

end

/-- `Evaluator::evaluate` (evaluator.rs lines 28-32): run every
top-level statement, discarding statement results. -/
def evalProgramLoop : Nat → EvalState → List Stmt → ERes
  | 0, _, _ => .fuelOut
  | fuel + 1, st, prog =>
      match prog with
      | [] => .ok st none
      | s :: rest =>
          match evalStmt fuel st s with
          | .ok st1 _ => evalProgramLoop fuel st1 rest
          | r => r

/-- Whole-program evaluation from a fresh environment, as
`Evaluator::new(ast, output)` plus `evaluate()`. -/
def evaluateProgram (fuel : Nat) (prog : Program) (outFlag : Bool) : ERes :=
  evalProgramLoop fuel ⟨Env.new, [], outFlag⟩ prog

/-- The evaluator's stdout trace for a program that completes normally
(the flag mirrors the `run` entry point, which constructs the evaluator
with `output = false`; no compared program contains a top-level
`return`, the only statement that consults the flag). -/
def evaluatorWrites (fuel : Nat) (prog : Program) : Option (List String) :=
  match evaluateProgram fuel prog false with
  | .ok st _ => some st.output
  | _ => none

/-! ## Symbol table (symbol.rs). -/

inductive Scope where
  | global
  | localS
  | builtinS
  | free
  | functionS
  deriving DecidableEq, Repr

structure Symbol where
  name : String
  scope : Scope
  index : Nat
  deriving DecidableEq, Repr

inductive SymbolTable where
  | mk (outer : Option SymbolTable) (store : List (String × Symbol))
       (numDefinitions : Nat) (freeSymbols : List Symbol)

def SymbolTable.outer : SymbolTable → Option SymbolTable
  | .mk o _ _ _ => o

def SymbolTable.store : SymbolTable → List (String × Symbol)
  | .mk _ s _ _ => s

def SymbolTable.numDefinitions : SymbolTable → Nat
  | .mk _ _ n _ => n

def SymbolTable.freeSymbols : SymbolTable → List Symbol
  | .mk _ _ _ f => f

def SymbolTable.new : SymbolTable := .mk none [] 0 []

def SymbolTable.newEnclosed (outer : SymbolTable) : SymbolTable :=
  .mk (some outer) [] 0 []

/-- `SymbolTable::define` (symbol.rs lines 72-82). -/
def SymbolTable.define : SymbolTable → String → Symbol × SymbolTable
  | .mk outer store nd fs, name =>
      let scope := if outer.isNone then Scope.global else Scope.localS
      let symbol : Symbol := ⟨name, scope, nd⟩
      (symbol, .mk outer (mapInsert store name symbol) (nd + 1) fs)

/-- `SymbolTable::define_free` (symbol.rs lines 90-99). -/
def SymbolTable.defineFree : SymbolTable → Symbol → Symbol × SymbolTable
  | .mk outer store nd fs, original =>
      let fs' := fs ++ [original]
      let symbol : Symbol := ⟨original.name, Scope.free, fs'.length - 1⟩
      (symbol, .mk outer (mapInsert store original.name symbol) nd fs')

/-- The symbol a `SymbolTable::resolve` call returns
(symbol.rs lines 107-128), computed without the table mutation.  The
source recurses into `outer.clone()`, so every mutation the recursive
call performs is discarded and its sole contribution is the returned
symbol: a hit in a store, passed through as-is when `Global`/`Builtin`
and otherwise re-packaged by each level's `define_free` as a `Free`
symbol whose index is that level's current free-symbol count. -/
def SymbolTable.resolveLookup : SymbolTable → String → Option Symbol
  | .mk outer store _ fs, name =>
      match store.lookup name with
      | some symbol => some symbol
      | none =>
          match outer with
          | some o =>
              match o.resolveLookup name with
              | some s =>
                  if s.scope = .global ∨ s.scope = .builtinS then some s
                  else some ⟨s.name, .free, fs.length⟩
              | none => none
          | none => none

/-- `SymbolTable::resolve` (symbol.rs lines 107-128): consult the own
store; otherwise resolve in the (cloned, hence unmutated) outer chain
and, unless the result is `Global`/`Builtin`, promote it into this
table with `define_free`. -/
def SymbolTable.resolve (t : SymbolTable) (name : String) :
    Option Symbol × SymbolTable :=
  match t.store.lookup name with
  | some symbol => (some symbol, t)
  | none =>
      match t.outer with
      | some o =>
          match o.resolveLookup name with
          | some s =>
              if s.scope = .global ∨ s.scope = .builtinS then (some s, t)
              else
                let (f, t') := t.defineFree s
                (some f, t')
          | none => (none, t)
      | none => (none, t)

/-! ## Bytecode compiler (compiler.rs).  `Compiler` state; the mutable
fields of the struct become explicit state.  All `unimplemented!` arms
and the `unwrap` of `leave_scope` are embedded as `none`; theorems about
the compiler are conditioned on successful compilation. -/

structure CState where
  constants : List Obj
  instructions : List Opcode
  preInstructions : List Opcode
  symbols : SymbolTable

def CState.new : CState := ⟨[], [], [], SymbolTable.new⟩

def CState.withSymbols (st : CState) (t : SymbolTable) : CState :=
  ⟨st.constants, st.instructions, st.preInstructions, t⟩

/-- `Compiler::emit` (compiler.rs lines 293-295). -/
def CState.emit (st : CState) (op : Opcode) : CState :=
  ⟨st.constants, st.instructions ++ [op], st.preInstructions, st.symbols⟩

/-- `Compiler::emit_return_position` (compiler.rs lines 297-301). -/
def CState.emitReturnPosition (st : CState) (op : Opcode) : Nat × CState :=
  (st.instructions.length, st.emit op)

/-- `self.instructions[pos] = op` backpatching; Rust index assignment
panics when `pos` is out of bounds (reachable, because `leave_scope` can
replace the instruction buffer by a shorter one), embedded as `none`. -/
def CState.patch (st : CState) (pos : Nat) (op : Opcode) : Option CState :=
  if pos < st.instructions.length then
    some ⟨st.constants, st.instructions.set pos op, st.preInstructions,
          st.symbols⟩
  else none

/-- The endif backpatch loop of the `ExprType::If` arm
(compiler.rs lines 285-287): each recorded position receives
`Jump(self.instructions.len())`. -/
def patchEndifJumps : CState → List Nat → Option CState
  | st, [] => some st
  | st, pos :: rest =>
      match st.patch pos (.jump st.instructions.length) with
      | some st1 => patchEndifJumps st1 rest
      | none => none

def CState.pushConstant (st : CState) (o : Obj) : CState :=
  ⟨st.constants ++ [o], st.instructions, st.preInstructions, st.symbols⟩

/-- `Compiler::load_symbol` (compiler.rs lines 327-335). -/
def CState.loadSymbol (st : CState) (s : Symbol) : CState :=
  match s.scope with
  | .global => st.emit (.getGlobal s.index)
  | .localS => st.emit (.getLocal s.index)
  | .free => st.emit (.getFree s.index)
  | .builtinS => st.emit (.getBuiltin s.index)
  | .functionS => st.emit .currentClosure

/-- `Compiler::enter_scope` (compiler.rs lines 311-316): a single
`pre_instructions` buffer — not a stack — saves the current
instructions. -/
def CState.enterScope (st : CState) : CState :=
  ⟨st.constants, [], st.instructions, SymbolTable.newEnclosed st.symbols⟩

/-- `Compiler::leave_scope` (compiler.rs lines 318-325); the `unwrap`
of the outer table is `none` when the current table has no outer. -/
def CState.leaveScope (st : CState) : Option (List Opcode × CState) :=
  match st.symbols.outer with
  | some o => some (st.instructions, ⟨st.constants, st.preInstructions, [], o⟩)
  | none => none

mutual

/-- `Compiler::compile_statement` (compiler.rs lines 39-140). -/
def compileStmt : Nat → CState → Stmt → Option CState
  | 0, _, _ => none
  | fuel + 1, st, stmt =>
      match stmt with
      | .exprS e => compileExpr fuel st e
      | .var name e =>
          match compileExpr fuel st e with
          | some st1 =>
              let (symbol, symt) := st1.symbols.define name
              let st2 := st1.withSymbols symt
              if symbol.scope = .global then
                some (st2.emit (.setGlobal symbol.index))
              else
                some (st2.emit (.setLocal symbol.index))
          | none => none
      | .block stmts => compileStmtList fuel st stmts
      | .function name args body =>
          let (symbol, symt) := st.symbols.define name
          let st1 := (st.withSymbols symt).enterScope
          let st2 := st1.emit (.setGlobal symbol.index)
          let st3 := defineArgs fuel st2 args
          match compileStmtList fuel st3 body with
          | some st4 =>
              match st4.leaveScope with
              | some (instraction, st5) =>
                  let numLocals := st5.symbols.numDefinitions
                  let numParameters := args.length
                  let compiledObject :=
                    Obj.compiledFunction instraction numLocals numParameters
                  let index := st5.constants.length
                  let st6 := (st5.pushConstant compiledObject).emit
                    (.loadConstant index)
                  let st7 := st6.emit (.closure index numLocals)
                  some (st7.emit (.setGlobal symbol.index))
              | none => none
          | none => none
      | .forS init conditions step block =>
          match compileStmt fuel st init with
          | some st1 =>
              let start := st1.instructions.length
              match compileExpr fuel st1 conditions with
              | some st2 =>
                  let (jumpNotTruthy, st3) :=
                    st2.emitReturnPosition (.jumpIfFalse 0)
                  match compileStmt fuel st3 (.block block) with
                  | some st4 =>
                      match compileStmt fuel st4 step with
                      | some st5 =>
                          let st6 := st5.emit (.jump start)
                          let endPos := st6.instructions.length
                          st6.patch jumpNotTruthy (.jumpIfFalse endPos)
                      | none => none
                  | none => none
              | none => none
          | none => none
      | .assert condition message =>
          match compileExpr fuel st condition with
          | some st1 =>
              let msg :=
                match message with
                | .literal (.stringL m) => m
                | _ => ""
              if msg = "" then some (st1.emit (.assert 0))
              else
                let (pos, st2) := st1.emitReturnPosition (.assert 0)
                match compileExpr fuel st2 message with
                | some st3 =>
                    let st4 := (st3.emit (.print 1)).emit (.exit 3)
                    st4.patch pos (.assert st4.instructions.length)
                | none => none
          | none => none
      | .assign target value =>
          match target with
          | .identE name =>
              let (s?, symt) := st.symbols.resolve name
              match s? with
              | none => none
              | some symbol =>
                  match compileExpr fuel (st.withSymbols symt) value with
                  | some st1 => some (st1.loadSymbol symbol)
                  | none => none
          | _ => none
      | .returnS e =>
          match compileExpr fuel st e with
          | some st1 => some (st1.emit .returnValue)
          | none => none
      | _ => none

/-- The parameter loop of the `Stmt::Function` arm
(compiler.rs lines 65-68): define each parameter in the new scope and
emit `SetGlobal(sym.index)`. -/
def defineArgs : Nat → CState → List String → CState
  | 0, st, _ => st
  | fuel + 1, st, args =>
      match args with
      | [] => st
      | arg :: rest =>
          let (symbol, symt) := st.symbols.define arg
          defineArgs fuel ((st.withSymbols symt).emit (.setGlobal symbol.index))
            rest

/-- Statement-list folding: the `Stmt::Block` arm and the function-body
loop. -/
def compileStmtList : Nat → CState → List Stmt → Option CState
  | 0, _, _ => none
  | fuel + 1, st, stmts =>
      match stmts with
      | [] => some st
      | s :: rest =>
          match compileStmt fuel st s with
          | some st1 => compileStmtList fuel st1 rest
          | none => none

/-- Argument-list folding for calls and `print`. -/
def compileExprList : Nat → CState → List ExprType → Option CState
  | 0, _, _ => none
  | fuel + 1, st, es =>
      match es with
      | [] => some st
      | e :: rest =>
          match compileExpr fuel st e with
          | some st1 => compileExprList fuel st1 rest
          | none => none

/-- `Compiler::compile_expression` (compiler.rs lines 142-291). -/
def compileExpr : Nat → CState → ExprType → Option CState
  | 0, _, _ => none
  | fuel + 1, st, e =>
      match e with
      | .infixExpr l op r =>
          if op = .equal then
            match l with
            | .identE name =>
                let (s?, symt) := st.symbols.resolve name
                match s? with
                | none => none
                | some symbol =>
                    match compileExpr fuel (st.withSymbols symt) r with
                    | some st1 => some (st1.loadSymbol symbol)
                    | none => none
            | _ => none
          else
            match compileExpr fuel st l with
            | some st1 =>
                match compileExpr fuel st1 r with
                | some st2 =>
                    match op with
                    | .plus => some (st2.emit .add)
                    | .star => some (st2.emit .multiply)
                    | .slash => some (st2.emit .divide)
                    | .mod => some (st2.emit .mod)
                    | .minus => some (st2.emit .minus)
                    | .greater => some (st2.emit .greaterThan)
                    | .less => some (st2.emit .lessThan)
                    | .equalEqual => some (st2.emit .equalEqual)
                    | .plusSelf =>
                        let st3 := st2.emit .add
                        match l with
                        | .identE name =>
                            let (s?, symt) := st3.symbols.resolve name
                            match s? with
                            | some symbol =>
                                some ((st3.withSymbols symt).emit
                                  (.setGlobal symbol.index))
                            | none => none
                        | _ => none
                    | _ => none
                | none => none
            | none => none
      | .printExpr es =>
          match compileExprList fuel st es with
          | some st1 => some (st1.emit (.print es.length))
          | none => none
      | .prefixExpr op e1 =>
          match compileExpr fuel st e1 with
          | some st1 =>
              match op with
              | .minus => some (st1.emit .nagetive)
              | _ => none
          | none => none
      | .literal lit =>
          let index := st.constants.length
          match lit with
          | .number n =>
              some ((st.pushConstant (.number n)).emit (.loadConstant index))
          | .stringL s =>
              some ((st.pushConstant (.stringO s)).emit (.loadConstant index))
          | .boolL b =>
              some ((st.pushConstant (.boolean b)).emit (.loadConstant index))
          | .nilL =>
              some ((st.pushConstant .nil).emit (.loadConstant index))
          | _ => none
      | .identE name =>
          let (s?, symt) := st.symbols.resolve name
          match s? with
          | none => none
          | some symbol => some ((st.withSymbols symt).loadSymbol symbol)
      | .call callee args =>
          match callee with
          | .identE name =>
              let st1? :=
                match builtinsGetIndex name with
                | some idx => some (st.emit (.getBuiltin idx))
                | none =>
                    let (s?, symt) := st.symbols.resolve name
                    match s? with
                    | some symbol =>
                        some ((st.withSymbols symt).emit
                          (.getGlobal symbol.index))
                    | none => none
              match st1? with
              | some st1 =>
                  match compileExprList fuel st1 args with
                  | some st2 => some (st2.emit (.call args.length))
                  | none => none
              | none => none
          | _ => none
      | .ifE condition elseif thenBranch elseBranch =>
          match compileExpr fuel st condition with
          | some st1 =>
              let (jumpNotTruthy, st2) := st1.emitReturnPosition (.jumpIfFalse 0)
              match compileStmt fuel st2 (.block thenBranch) with
              | some st3 =>
                  let existElse := elseBranch.length > 0
                  let (st4, endif) :=
                    if existElse then
                      let (pos, stx) := st3.emitReturnPosition (.jump 9999)
                      (stx, [pos])
                    else (st3, ([] : List Nat))
                  let jmp := st4.instructions.length
                  match st4.patch jumpNotTruthy (.jumpIfFalse jmp) with
                  | some st5 =>
                      match compileElseifs fuel st5 elseif existElse endif with
                      | some (st6, endif2) =>
                          match
                            (if existElse then
                              compileStmt fuel st6 (.block elseBranch)
                             else some st6) with
                          | some st7 => patchEndifJumps st7 endif2
                          | none => none
                      | none => none
                  | none => none
              | none => none
          | none => none
      | _ => none

/-- The `else if` loop of the `ExprType::If` arm
(compiler.rs lines 267-279), carrying the `endif` position list. -/
def compileElseifs : Nat → CState → List (ExprType × List Stmt) → Bool →
    List Nat → Option (CState × List Nat)
  | 0, _, _, _, _ => none
  | fuel + 1, st, chain, existElse, endif =>
      match chain with
      | [] => some (st, endif)
      | (condition, block) :: rest =>
          match compileExpr fuel st condition with
          | some st1 =>
              let (jumpNotTruthy, st2) := st1.emitReturnPosition (.jumpIfFalse 0)
              match compileStmt fuel st2 (.block block) with
              | some st3 =>
                  let (st4, endif') :=
                    if existElse then
                      (st3.emit (.jump 9999), endif ++ [st3.instructions.length])
                    else (st3, endif)
                  let jmp := st4.instructions.length
                  match st4.patch jumpNotTruthy (.jumpIfFalse jmp) with
                  | some st5 => compileElseifs fuel st5 rest existElse endif'
                  | none => none
              | none => none
          | none => none

end

/-- `Compiler::compile` (compiler.rs lines 33-37) from a fresh
compiler. -/
def compileProgram (fuel : Nat) (prog : Program) : Option CState :=
  compileStmtList fuel CState.new prog

/-! ## Virtual machine (vm.rs), on the straight-line fragment: a single
main frame, no `Closure`/`Return` frame switching (the programs the
properties below run contain none).  The stack is a list whose last
element is the top; `sp` always equals the stack length and is left
implicit.  `globals` is the `GLOBALS_SIZE = 65536` vector as an indexed
map.  `output` records the value writes of `Print` in order (the
unconditional `println!` debug traces of `run`/`execute` are not
recorded; including them would only widen the divergence proved below).
`calls` records each invocation of an externalised builtin function
pointer together with its argument vector. -/

def GLOBALS_SIZE : Nat := 65536

structure VMState where
  stack : List Obj
  globals : Nat → Obj
  output : List String
  calls : List (String × List Obj)

def VMState.new : VMState :=
  ⟨[], fun _ => Obj.nil, [], []⟩

def VMState.push (st : VMState) (obj : Obj) : VMState :=
  ⟨st.stack ++ [obj], st.globals, st.output, st.calls⟩

/-- `VM::pop` unwraps, so popping an empty stack is a panic. -/
def VMState.pop (st : VMState) : Option (Obj × VMState) :=
  match st.stack.getLast? with
  | some obj => some (obj, ⟨st.stack.dropLast, st.globals, st.output, st.calls⟩)
  | none => none

def VMState.write (st : VMState) (s : String) : VMState :=
  ⟨st.stack, st.globals, st.output ++ [s], st.calls⟩

def VMState.setGlobalAt (st : VMState) (i : Nat) (obj : Obj) : VMState :=
  ⟨st.stack, fun j => if j = i then obj else st.globals j, st.output, st.calls⟩

def VMState.recordCall (st : VMState) (name : String) (args : List Obj) :
    VMState :=
  ⟨st.stack, st.globals, st.output, st.calls ++ [(name, args)]⟩

/-- `Builtins::get_by_index` (builtins.rs lines 38-44). -/
def builtinsGetByIndex (i : Nat) : Option Obj :=
  match builtinSortedNames[i]? with
  | some name => newBuiltins.lookup name
  | none => none

/-- Result of one `VM::execute` step: the next ip, process exit, a
panic, or a source path outside this fragment (frame switching,
`DefineGlobal`'s Debug formatting, `f64` display). -/
inductive StepRes where
  | next (st : VMState) (ip : Nat)
  | exited (code : Nat) (st : VMState)
  | vmPanic
  | unmodelledStep

inductive VMPrintRes where
  | okP (st : VMState)
  | panicP
  | unmodelledP

/-- The pop-and-write loop of the `Opcode::Print(n)` arm
(vm.rs lines 243-249): each popped value is written with
`print!("{} ", obj)` — the top of the stack first, each followed by one
space. -/
def vmPrintLoop : Nat → VMState → VMPrintRes
  | 0, st => .okP st
  | n + 1, st =>
      match st.pop with
      | some (obj, st1) =>
          match fmtObj obj with
          | some s => vmPrintLoop n (st1.write (s ++ " "))
          | none => .unmodelledP
      | none => .panicP

/-- The binary-operator arm of `VM::execute` (vm.rs lines 165-191):
pop right, pop left; any non-numeric pair produces `Nil`. -/
def vmBinOp (instruction : Opcode) (l r : Rat) : Obj :=
  match instruction with
  | .add => .number (l + r)
  | .divide => .number (l / r)
  | .minus => .number (l - r)
  | .multiply => .number (l * r)
  | .mod => .number (ratFmod l r)
  | .greaterThan => .boolean (decide (l > r))
  | .lessThan => .boolean (decide (l < r))
  | .equalEqual => .boolean (decide (l = r))
  | _ => .nil

/-- `VM::execute` (vm.rs lines 157-341) on the straight-line opcode
fragment.  `SetLocal`/`GetLocal` are no-ops in the source (their bodies
are commented out); `Call` handles only a `Builtin` callee, pops it and
`n` arguments, invokes the externalised function pointer
(`let _ = f(args)` — recorded in `calls`) and pushes nothing. -/
def vmExecute (constants : List Obj) (instruction : Opcode) (ip : Nat)
    (st : VMState) : StepRes :=
  match instruction with
  | .add | .divide | .minus | .multiply | .mod
  | .lessThan | .equalEqual | .greaterThan =>
      match st.pop with
      | some (right, st1) =>
          match st1.pop with
          | some (left, st2) =>
              let result :=
                match left, right with
                | .number l, .number r => vmBinOp instruction l r
                | _, _ => Obj.nil
              .next (st2.push result) (ip + 1)
          | none => .vmPanic
      | none => .vmPanic
  | .assert pos =>
      match st.pop with
      | some (obj, st1) =>
          match obj with
          | .boolean false => .vmPanic
          | _ => .next st1 pos
      | none => .vmPanic
  | .exit code => .exited code st
  | .jumpIfFalse pos =>
      match st.pop with
      | some (condition, st1) =>
          match condition with
          | .boolean false => .next st1 pos
          | _ => .next st1 (ip + 1)
      | none => .vmPanic
  | .jump pos => .next st pos
  | .loadConstant index =>
      match constants[index]? with
      | some c => .next (st.push c) (ip + 1)
      | none => .vmPanic
  | .pop =>
      match st.pop with
      | some (_, st1) => .next st1 (ip + 1)
      | none => .vmPanic
  | .abs =>
      match st.pop with
      | some (obj, st1) =>
          .next (st1.push (.number (match obj with
            | .number n => |n|
            | _ => 0))) (ip + 1)
      | none => .vmPanic
  | .nagetive =>
      match st.pop with
      | some (obj, st1) =>
          .next (st1.push (.number (match obj with
            | .number n => -n
            | _ => 0))) (ip + 1)
      | none => .vmPanic
  | .print n =>
      match vmPrintLoop n st with
      | .okP st1 => .next st1 (ip + 1)
      | .panicP => .vmPanic
      | .unmodelledP => .unmodelledStep
  | .defineGlobal _ => .unmodelledStep
  | .getGlobal index =>
      if index < GLOBALS_SIZE then .next (st.push (st.globals index)) (ip + 1)
      else .vmPanic
  | .setGlobal index =>
      match st.pop with
      | some (obj, st1) =>
          if index < GLOBALS_SIZE then .next (st1.setGlobalAt index obj) (ip + 1)
          else .vmPanic
      | none => .vmPanic
  | .getBuiltin index =>
      match builtinsGetByIndex index with
      | some obj => .next (st.push obj) (ip + 1)
      | none => .vmPanic
  | .call n =>
      match st.pop with
      | some (func, st1) =>
          match func with
          | .builtin name _ =>
              if n ≤ st1.stack.length then
                let args := st1.stack.drop (st1.stack.length - n)
                let rest := st1.stack.take (st1.stack.length - n)
                .next ((VMState.mk rest st1.globals st1.output
                  st1.calls).recordCall name args) (ip + 1)
              else .vmPanic
          | _ => .vmPanic
      | none => .vmPanic
  | .closure _ _ => .unmodelledStep
  | .getFree _ => .unmodelledStep
  | .returnValue => .unmodelledStep
  | .returnOp => .unmodelledStep
  | .tailCall _ => .vmPanic
  | .setLocal _ => .next st (ip + 1)
  | .getLocal _ => .next st (ip + 1)
  | .currentClosure => .vmPanic

inductive VMRunRes where
  | finished (st : VMState)
  | exitedR (code : Nat) (st : VMState)
  | vmPanicR
  | unmodelledR
  | fuelOutR

/-- The instruction loop of `VM::run` (vm.rs lines 74-94) for the main
frame: execute while `ip < end_ip` with `end_ip` the instruction
count. -/
def vmLoop (constants : List Obj) (instructions : List Opcode) :
    Nat → VMState → Nat → VMRunRes
  | 0, _, _ => .fuelOutR
  | fuel + 1, st, ip =>
      if h : ip < instructions.length then
        match vmExecute constants (instructions.get ⟨ip, h⟩) ip st with
        | .next st1 ip1 => vmLoop constants instructions fuel st1 ip1
        | .exited code st1 => .exitedR code st1
        | .vmPanic => .vmPanicR
        | .unmodelledStep => .unmodelledR
      else .finished st

/-- Compile a program and run it in the VM
(`compile` + `VM::new` + `define_constants` + `run`). -/
def runProgramVM (fuel : Nat) (prog : Program) : VMRunRes :=
  match compileProgram fuel prog with
  | some cst => vmLoop cst.constants cst.instructions fuel VMState.new 0
  | none => .vmPanicR

/-- The VM's stdout trace of value writes for a program that compiles
and runs to completion. -/
def vmWrites (fuel : Nat) (prog : Program) : Option (List String) :=
  match runProgramVM fuel prog with
  | .finished st => some st.output
  | _ => none

/-! ## Import loader (imports.rs).  The file system and the
read + non-empty + lex + parse pipeline applied to each imported file
are abstracted into `files : String → Option Program`: `some` is a file
that loads and parses without errors, `none` is any of the fatal paths
(missing file `unwrap`, empty-file `panic!`, parse-error `panic!`).
Both `Imports.imports` and the local `progs` accumulator are `HashMap`s;
they are embedded as association lists with unique keys via `mapInsert`
(replace or append), which fixes one representative entry order — the
unspecified iteration order of the final `self.imports.clone()` loop in
`load` is an explicit parameter, quantified over all enumerations of
the map in the theorems below.  `self.imports` is populated only after
`load_all` returns, so the cache lookup inside `load_all` consults the
initial (empty) map, which the embedding threads faithfully. -/

abbrev Imap := List (String × Program)

mutual

/-- `Imports::load_all` (imports.rs lines 39-78).  Returns `some none`
when the program contains no import statements (the Rust `None`),
`some (some m)` with the accumulated map otherwise; the outer `none` is
a panic or fuel exhaustion. -/
def loadAll (files : String → Option Program) :
    Nat → Imap → Program → Option (Option Imap)
  | 0, _, _ => none
  | fuel + 1, selfImports, program =>
      let importStmts := program.filter fun s =>
        match s with
        | .importS _ => true
        | _ => false
      if importStmts.length = 0 then some none
      else
        match loadAllLoop files fuel selfImports importStmts [] with
        | some progs => some (some progs)
        | none => none

/-- The `for import in imports` loop of `load_all` (imports.rs lines
48-76), accumulating `progs`. -/
def loadAllLoop (files : String → Option Program) :
    Nat → Imap → List Stmt → Imap → Option Imap
  | 0, _, _, _ => none
  | fuel + 1, selfImports, stmts, progs =>
      match stmts with
      | [] => some progs
      | stmt :: rest =>
          match stmt with
          | .importS s =>
              let filename := s ++ ".lox"
              match files filename with
              | none => none
              | some program =>
                  if (selfImports.lookup filename).isSome then
                    loadAllLoop files fuel selfImports rest progs
                  else
                    match loadAll files fuel selfImports program with
                    | some opt =>
                        let progs1 :=
                          match opt with
                          | some innerMap =>
                              innerMap.foldl
                                (fun m kv => mapInsert m kv.1 kv.2) progs
                          | none => progs
                        loadAllLoop files fuel selfImports rest
                          (mapInsert progs1 filename program)
                    | none => none
          | _ => loadAllLoop files fuel selfImports rest progs

end

/-- The contents of `self.imports` after the insert loop of
`Imports::load` (imports.rs lines 25-30): the map `load_all` returned,
or empty when the program had no imports. -/
def importsSelfMap (files : String → Option Program) (fuel : Nat)
    (program : Program) : Option Imap :=
  match loadAll files fuel [] program with
  | none => none
  | some (some m) => some m
  | some none => some []

/-- `Imports::load` (imports.rs lines 24-37).  `iterOrder` is the
enumeration the `for (_, v) in self.imports.clone()` loop happens to
follow — `HashMap` iteration order is unspecified, so it is a
parameter; the theorems below quantify over every permutation of the
map's entries.  The loop `progs.extend(v)` concatenates the imported
programs in that order, then appends the original program. -/
def importsLoad (files : String → Option Program) (fuel : Nat)
    (program : Program) (iterOrder : Imap) : Option Program :=
  match importsSelfMap files fuel program with
  | none => none
  | some _ =>
      some ((iterOrder.foldl (fun progs kv => progs ++ kv.2) []) ++ program)

/-! ## Definitions supporting the property statements. -/

/-- The four primitive value kinds named by the equality property
(Number, Bool, String, Nil), with their literal expressions. -/
inductive PrimVal where
  | num (q : Rat)
  | str (s : String)
  | boolP (b : Bool)
  | nilP

def PrimVal.toExpr : PrimVal → ExprType
  | .num q => .literal (.number q)
  | .str s => .literal (.stringL s)
  | .boolP b => .literal (.boolL b)
  | .nilP => .literal .nilL

/-- Structural equality within a matching primitive kind, `false` across
kinds — the behaviour the specification ascribes to `==`. -/
def primEq : PrimVal → PrimVal → Bool
  | .num a, .num b => a = b
  | .str a, .str b => a = b
  | .boolP a, .boolP b => a = b
  | .nilP, .nilP => true
  | _, _ => false

/-- What the evaluator's `!=` actually computes: structural inequality
within a matching Number/Bool/String kind, `false` in every other case
(two `Nil`s included). -/
def primNeq : PrimVal → PrimVal → Bool
  | .num a, .num b => a ≠ b
  | .str a, .str b => a ≠ b
  | .boolP a, .boolP b => a ≠ b
  | _, _ => false

/-- The statement position of one `Print` per branch; the two-argument
print program compared across back-ends. -/
def progC1 : Program :=
  [.exprS (.printExpr [.literal (.stringL "a"), .literal (.stringL "b")])]

def printStmt (s : String) : Stmt :=
  .exprS (.printExpr [.literal (.stringL s)])

/-- `if (true) { print "a"; } else if (true) { print "b"; }` — an
if/else-if chain with no `else` branch. -/
def progC6 : Program :=
  [.exprS (.ifE (.literal (.boolL true))
    [((.literal (.boolL true)), [printStmt "b"])] [printStmt "a"] [])]

/-- A two-scope environment in which both the innermost and the
immediately enclosing store bind `x`. -/
def envC3 : Env :=
  .mk [("x", .index 1)] (some (.mk [("x", .index 2)] none none)) none

/-- Position-indexed jump-target bound: every `Jump`/`JumpIfFalse` in
the list points into `[0, length]`. -/
def jumpTargetsOk (l : List Opcode) : Prop :=
  ∀ (p t : Nat),
    (l[p]? = some (Opcode.jump t) ∨ l[p]? = some (Opcode.jumpIfFalse t)) →
    t ≤ l.length

/-- `jumpTargetsOk` with a list of exempt positions (the pending
placeholder slots of enclosing, still-running `if` compilations). -/
def instrOk (exc : List Nat) (l : List Opcode) : Prop :=
  ∀ (p t : Nat), p ∉ exc →
    (l[p]? = some (Opcode.jump t) ∨ l[p]? = some (Opcode.jumpIfFalse t)) →
    t ≤ l.length

/-- Every `CompiledFunction` constant carries a well-targeted body. -/
def constOk : Obj → Prop
  | .compiledFunction instrs _ _ => jumpTargetsOk instrs
  | _ => True

def constsOk (cs : List Obj) : Prop :=
  ∀ c ∈ cs, constOk c

/-- The two-import program and file system of the loader property. -/
def filesC7 : String → Option Program := fun n =>
  if n = "a.lox" then some [.exprS (.literal (.stringL "A"))]
  else if n = "b.lox" then some [.exprS (.literal (.stringL "B"))]
  else none

def progC7 : Program :=
  [.importS "a", .importS "b", .exprS (.literal (.stringL "main"))]

/-! ## Properties. -/

/-- C1: the two back-ends do not produce the same stdout writes.  For
`print "a", "b";` the evaluator writes `"a"` then `"b"` (concatenated,
no separator), while the VM pops the operands — so it writes them in
reverse order — and appends a space after each (`print!("{} ", obj)`),
writing `"b "` then `"a "`.  The spec's requirement that the sequences
of writes agree fails on this program (the VM additionally interleaves
unconditional debug `println!` lines, which this trace does not even
count). -/
theorem c1_print_backends_diverge :
    evaluatorWrites 9 progC1 = some ["a", "b"]
    ∧ vmWrites 9 progC1 = some ["b ", "a "]
    ∧ evaluatorWrites 9 progC1 ≠ vmWrites 9 progC1 := by
  refine ⟨rfl, rfl, by decide⟩

/-- C2: `assert` is not in the lexer's keyword map
(`Lexing::new` inserts twenty-two keywords; `assert` is absent), so the
lexeme `assert` is emitted as `Identifier("assert")`, not as a keyword
token — although the parser matches on `Token::Assert` and the
compiler's own `test_assert` feeds `assert …;` source through this
lexer.  This falsifies the claim for the listed word `assert` (the
other twenty-two words do lex to their keyword tokens). -/
theorem c2_assert_lexes_as_identifier :
    firstToken "assert" = .tok (.identifier "assert") ⟨"assert".data, 6, 6, 0, []⟩
    ∧ keywords.lookup "assert" = none
    ∧ (keywords.all fun p =>
        firstToken p.1
          = .tok p.2 ⟨p.1.data, p.1.data.length, p.1.data.length, 0, []⟩)
        = true := by
  refine ⟨by decide, by decide, by decide⟩

/-- C3 counterexample: with `x` bound in both the innermost store and
the immediately enclosing store, `Env::set` updates the *outer* binding
and leaves the innermost one untouched, while the claimed walk would
update the closest (innermost) scope; the two results differ. -/
theorem c3_set_skips_closest_scope_counterexample :
    Env.set envC3 "x" (.index 9) ≠ envSetSpec envC3 "x" (.index 9) := by
  simp [Env.set, envSetSpec, envC3, mapInsert]

/-- C3 (amended): `Env::set` consults only the immediately enclosing
scope: with no outer environment it inserts into the current store;
with an outer environment it updates the outer store exactly when that
store itself binds the name — at whatever depth the name may otherwise
be bound — and otherwise inserts into the current store. -/
theorem c3_set_consults_only_immediate_outer :
    (∀ store cc name value,
      Env.set (.mk store none cc) name value
        = .mk (mapInsert store name value) none cc)
    ∧ (∀ store ostore oouter occ cc name value,
        (ostore.lookup name).isSome = true →
        Env.set (.mk store (some (.mk ostore oouter occ)) cc) name value
          = .mk store (some (.mk (mapInsert ostore name value) oouter occ)) cc)
    ∧ (∀ store ostore oouter occ cc name value,
        (ostore.lookup name).isSome = false →
        Env.set (.mk store (some (.mk ostore oouter occ)) cc) name value
          = .mk (mapInsert store name value)
              (some (.mk ostore oouter occ)) cc) := by
  refine ⟨fun store cc name value => rfl, ?_, ?_⟩
  · intro store ostore oouter occ cc name value h
    simp [Env.set, h]
  · intro store ostore oouter occ cc name value h
    simp [Env.set, h]

/-- C3 witness: the amended statement applied to a concrete two-scope
chain whose outer store binds `x`. -/
theorem c3_set_witness :
    Env.set (.mk [] (some (.mk [("x", Obj.index 2)] none none)) none) "x"
        (.index 9)
      = .mk [] (some (.mk [("x", Obj.index 9)] none none)) none :=
  c3_set_consults_only_immediate_outer.2.1 [] [("x", Obj.index 2)] none none
    none "x" (.index 9) rfl

/-- C4 counterexample: for operands of different kinds
(`"a" != nil`) the evaluator's `!=` returns `Boolean(false)` — the
`BangEqual` arm has no catch-all `true` and no `Nil` case, everything
outside the three matched kinds falls through to `false` — whereas the
claim requires `Boolean(true)`. -/
theorem c4_bang_equal_mismatch_counterexample :
    evalExpr 9 ⟨Env.new, [], false⟩
      (.infixExpr (.literal (.stringL "a")) .bangEqual (.literal .nilL))
      = .ok ⟨Env.new, [], false⟩ (some (.boolean false))
    ∧ evalExpr 9 ⟨Env.new, [], false⟩
      (.infixExpr (.literal (.stringL "a")) .bangEqual (.literal .nilL))
      ≠ .ok ⟨Env.new, [], false⟩ (some (.boolean true)) := by
  constructor
  · rfl
  · intro h
    simp [evalExpr, evalInfix, evalInfixOps, evalBangEq, liftERes] at h

/-- C4 (amended): for every pair of primitive operand values the
evaluator's infix `==` returns the structural within-kind equality
(`false` across kinds), and its infix `!=` returns the structural
within-kind inequality for Number/Bool/String but `Boolean(false)` in
every other case — across kinds and for two `Nil`s alike. -/
theorem c4_equality_dispatch : ∀ (st : EvalState) (n : Nat) (v w : PrimVal),
    evalExpr (n + 4) st (.infixExpr v.toExpr .equalEqual w.toExpr)
      = .ok st (some (.boolean (primEq v w)))
    ∧ evalExpr (n + 4) st (.infixExpr v.toExpr .bangEqual w.toExpr)
      = .ok st (some (.boolean (primNeq v w))) := by
  intro st n v w
  cases v <;> cases w <;> exact ⟨rfl, rfl⟩

/-- C8: an identifier resolves to the registered builtin of that name
when one exists (builtins shadow the environment), otherwise to the
nearest environment binding found by `Env::get`'s outward walk; when
neither exists the evaluator prints `Undefined variable '…'.` and exits
the process with code 70. -/
theorem c8_ident_resolution :
    (∀ (fuel : Nat) (st : EvalState) (name : String) (b : Obj),
        newBuiltins.lookup name = some b →
        evalExpr (fuel + 1) st (.identE name) = .ok st (some b))
    ∧ (∀ (fuel : Nat) (st : EvalState) (name : String) (v : Obj),
        newBuiltins.lookup name = none → st.envs.get name = some v →
        evalExpr (fuel + 1) st (.identE name) = .ok st (some v))
    ∧ (∀ (fuel : Nat) (st : EvalState) (name : String),
        newBuiltins.lookup name = none → st.envs.get name = none →
        evalExpr (fuel + 1) st (.identE name)
          = .exitR 70 (st.writeLn ("Undefined variable '" ++ name ++ "'."))) := by
  refine ⟨?_, ?_, ?_⟩ <;> intro fuel st name
  · intro b h; simp [evalExpr, h]
  · intro v h1 h2; simp [evalExpr, h1, h2]
  · intro h1 h2; simp [evalExpr, h1, h2]

/-- C8 witness: the builtin `len` resolves to its registry entry, and an
unbound name exits with code 70 after the diagnostic write. -/
theorem c8_ident_witness :
    evalExpr 1 ⟨Env.new, [], false⟩ (.identE "len")
      = .ok ⟨Env.new, [], false⟩ (some (.builtin "len" 1))
    ∧ evalExpr 1 ⟨Env.new, [], false⟩ (.identE "zzz")
      = .exitR 70 ((⟨Env.new, [], false⟩ : EvalState).writeLn
          ("Undefined variable '" ++ "zzz" ++ "'.")) :=
  ⟨c8_ident_resolution.1 0 ⟨Env.new, [], false⟩ "len" (.builtin "len" 1) rfl,
   c8_ident_resolution.2.2 0 ⟨Env.new, [], false⟩ "zzz" rfl rfl⟩

/-- C9: lexing is claimed never to panic, but `get_char` `unwrap`s the
exhausted character iterator: on the two-character input `'\` (a string
opened by a single quote whose next character is a backslash at end of
input) the escape handler calls `get_char` twice with only one character
left, and the second call panics. -/
theorem c9_lexer_panics_on_trailing_escape :
    firstToken "'\\" = .panicked := by decide

/-- C10: executing `Call(n)` with a `Builtin` callee on top of the stack
pops the callee and the `n` arguments, invokes the externalised builtin
function pointer on exactly those arguments (recorded in `calls`), and
pushes nothing — `let _ = f(args)` discards the result — leaving the
operand stack exactly `n + 1` entries shorter. -/
theorem c10_call_builtin_discards_result :
    ∀ (constants : List Obj) (ip : Nat) (g : Nat → Obj)
      (out : List String) (cs : List (String × List Obj))
      (rest args : List Obj) (name : String) (argc : Int) (n : Nat),
      args.length = n →
      vmExecute constants (Opcode.call n) ip
          ⟨rest ++ args ++ [Obj.builtin name argc], g, out, cs⟩
        = .next ⟨rest, g, out, cs ++ [(name, args)]⟩ (ip + 1)
      ∧ rest.length + (n + 1)
          = (rest ++ args ++ [Obj.builtin name argc]).length := by
  intro constants ip g out cs rest args name argc n h
  subst h
  have hpop : (VMState.mk (rest ++ args ++ [Obj.builtin name argc]) g out cs).pop
      = some (Obj.builtin name argc, ⟨rest ++ args, g, out, cs⟩) := by
    simp [VMState.pop]
  constructor
  · simp only [vmExecute, hpop]
    rw [if_pos (by simp)]
    have hlen : (rest ++ args).length - args.length = rest.length := by
      simp
    rw [hlen, List.take_left, List.drop_left]
    rfl
  · simp

/-- C10 witness: `Call(1)` on a stack holding one argument below the
builtin `len`. -/
theorem c10_call_builtin_witness :
    vmExecute [] (Opcode.call 1) 0
        ⟨[] ++ [Obj.stringO "x"] ++ [Obj.builtin "len" 1],
         (fun _ => Obj.nil), [], []⟩
      = .next ⟨[], (fun _ => Obj.nil), [], [("len", [Obj.stringO "x"])]⟩ 1
    ∧ ([] : List Obj).length + (1 + 1)
        = (([] : List Obj) ++ [Obj.stringO "x"]
            ++ [Obj.builtin "len" 1]).length :=
  c10_call_builtin_discards_result [] 0 (fun _ => Obj.nil) [] [] []
    [Obj.stringO "x"] "len" 1 1 rfl

theorem mapInsert_mem {α : Type} :
    ∀ (m : List (String × α)) (k : String) (v : α) (kv : String × α),
      kv ∈ mapInsert m k v → kv ∈ m ∨ kv = (k, v) := by
  intro m k v kv h
  induction m with
  | nil => simp [mapInsert] at h; exact Or.inr h
  | cons hd tl ih =>
      rw [mapInsert] at h
      by_cases hk : hd.1 = k
      · simp [hk] at h
        rcases h with h | h
        · exact Or.inr (by simp [h])
        · exact Or.inl (List.mem_cons_of_mem _ h)
      · simp [hk] at h
        rcases h with h | h
        · exact Or.inl (by simp [h])
        · rcases ih h with h' | h'
          · exact Or.inl (List.mem_cons_of_mem _ h')
          · exact Or.inr h'

theorem mapInsert_keys_mem {α : Type} :
    ∀ (m : List (String × α)) (k : String) (v : α) (x : String),
      x ∈ (mapInsert m k v).map Prod.fst → x ∈ m.map Prod.fst ∨ x = k := by
  intro m k v x h
  rw [List.mem_map] at h
  obtain ⟨kv, hmem, hx⟩ := h
  rcases mapInsert_mem m k v kv hmem with h' | h'
  · exact Or.inl (hx ▸ List.mem_map_of_mem _ h')
  · subst h'; exact Or.inr hx.symm

theorem mapInsert_keys_nodup {α : Type} :
    ∀ (m : List (String × α)) (k : String) (v : α),
      (m.map Prod.fst).Nodup → ((mapInsert m k v).map Prod.fst).Nodup := by
  intro m k v h
  induction m with
  | nil => simp [mapInsert]
  | cons hd tl ih =>
      rw [mapInsert]
      simp only [List.map_cons, List.nodup_cons] at h
      by_cases hk : hd.1 = k
      · simp only [hk, if_true, List.map_cons, List.nodup_cons]
        exact ⟨hk ▸ h.1, h.2⟩
      · simp only [hk, if_false, List.map_cons, List.nodup_cons]
        refine ⟨fun hc => ?_, ih h.2⟩
        rcases mapInsert_keys_mem tl k v hd.1 hc with h' | h'
        · exact h.1 h'
        · exact hk h'

theorem foldInsert_mem {α : Type} :
    ∀ (l : List (String × α)) (acc : List (String × α)) (kv : String × α),
      kv ∈ l.foldl (fun m p => mapInsert m p.1 p.2) acc →
      kv ∈ acc ∨ kv ∈ l := by
  intro l
  induction l with
  | nil => intro acc kv h; exact Or.inl h
  | cons hd tl ih =>
      intro acc kv h
      rw [List.foldl_cons] at h
      rcases ih _ kv h with h' | h'
      · rcases mapInsert_mem acc hd.1 hd.2 kv h' with h'' | h''
        · exact Or.inl h''
        · exact Or.inr (by simp [h''])
      · exact Or.inr (List.mem_cons_of_mem _ h')

theorem foldInsert_nodup {α : Type} :
    ∀ (l : List (String × α)) (acc : List (String × α)),
      (acc.map Prod.fst).Nodup →
      ((l.foldl (fun m p => mapInsert m p.1 p.2) acc).map Prod.fst).Nodup := by
  intro l
  induction l with
  | nil => intro acc h; exact h
  | cons hd tl ih =>
      intro acc h
      rw [List.foldl_cons]
      exact ih _ (mapInsert_keys_nodup _ _ _ h)

def mOk (files : String → Option Program) (m : Imap) : Prop :=
  (m.map Prod.fst).Nodup ∧ ∀ kv ∈ m, files kv.1 = some kv.2

theorem loadAll_mOk (files : String → Option Program) : ∀ fuel : Nat,
    (∀ si prog m, loadAll files fuel si prog = some (some m) →
      mOk files m)
    ∧ (∀ si stmts progs m, loadAllLoop files fuel si stmts progs = some m →
        ((progs.map Prod.fst).Nodup → (m.map Prod.fst).Nodup)
        ∧ (∀ kv ∈ m, kv ∈ progs ∨ files kv.1 = some kv.2)) := by
  intro fuel
  induction fuel with
  | zero => exact ⟨fun si prog m h => by simp [loadAll] at h,
      fun si stmts progs m h => by simp [loadAllLoop] at h⟩
  | succ n ih =>
      constructor
      · intro si prog m h
        rw [loadAll] at h
        split at h
        · simp at h
        · revert h
          split
          · intro h
            simp only [Option.some.injEq] at h
            subst h
            rename_i progs heq
            have := ih.2 si _ [] progs heq
            exact ⟨this.1 (by simp), fun kv hkv => by
              rcases this.2 kv hkv with h' | h'
              · simp at h'
              · exact h'⟩
          · intro h; simp at h
      · intro si stmts progs m h
        cases stmts with
        | nil =>
            rw [loadAllLoop.eq_def] at h
            simp only [Option.some.injEq] at h
            subst h
            exact ⟨id, fun kv hkv => Or.inl hkv⟩
        | cons stmt rest =>
            rw [loadAllLoop.eq_def] at h
            simp only at h
            match hs : stmt with
            | .importS s =>
                subst hs
                simp only at h
                revert h
                match hf : files (s ++ ".lox") with
                | none => intro h; simp at h
                | some program =>
                    simp only
                    split
                    · intro h
                      have := ih.2 si rest progs m h
                      exact this
                    · match hl : loadAll files n si program with
                      | none => intro h; simp at h
                      | some opt =>
                          simp only
                          intro h
                          cases opt with
                          | none =>
                              simp only at h
                              have hmain := ih.2 si rest
                                (mapInsert progs (s ++ ".lox") program) m h
                              constructor
                              · intro hnd
                                exact hmain.1 (mapInsert_keys_nodup _ _ _ hnd)
                              · intro kv hkv
                                rcases hmain.2 kv hkv with h' | h'
                                · rcases mapInsert_mem _ _ _ kv h' with h'' | h''
                                  · exact Or.inl h''
                                  · subst h''; exact Or.inr hf
                                · exact Or.inr h'
                          | some innerMap =>
                              simp only at h
                              have hmain := ih.2 si rest
                                (mapInsert
                                  (innerMap.foldl
                                    (fun m kv => mapInsert m kv.1 kv.2) progs)
                                  (s ++ ".lox") program) m h
                              have hinner := (ih.1 si program innerMap
                                (by rw [hl]))
                              constructor
                              · intro hnd
                                exact hmain.1 (mapInsert_keys_nodup _ _ _
                                  (foldInsert_nodup _ _ hnd))
                              · intro kv hkv
                                rcases hmain.2 kv hkv with h' | h'
                                · rcases mapInsert_mem _ _ _ kv h' with h'' | h''
                                  · rcases foldInsert_mem innerMap progs kv h''
                                      with h3 | h3
                                    · exact Or.inl h3
                                    · exact Or.inr (hinner.2 kv h3)
                                  · subst h''; exact Or.inr hf
                                · exact Or.inr h'
            | .blank => exact ih.2 si rest progs m h
            | .var a b => exact ih.2 si rest progs m h
            | .exprS e => exact ih.2 si rest progs m h
            | .block l => exact ih.2 si rest progs m h
            | .returnS e => exact ih.2 si rest progs m h
            | .function a b c => exact ih.2 si rest progs m h
            | .switch a b => exact ih.2 si rest progs m h
            | .case a b => exact ih.2 si rest progs m h
            | .defaultS a => exact ih.2 si rest progs m h
            | .whileS a b => exact ih.2 si rest progs m h
            | .classStmt a b => exact ih.2 si rest progs m h
            | .forS a b c d => exact ih.2 si rest progs m h
            | .forIn a b c => exact ih.2 si rest progs m h
            | .classInitS a b => exact ih.2 si rest progs m h
            | .assert a b => exact ih.2 si rest progs m h
            | .assign a b => exact ih.2 si rest progs m h


theorem foldlAppend_eq :
    ∀ (l : Imap) (acc : Program),
      l.foldl (fun a kv => a ++ kv.2) acc = acc ++ l.flatMap Prod.snd := by
  intro l
  induction l with
  | nil => intro acc; simp
  | cons hd tl ih => intro acc; simp [ih, List.flatMap_cons]

/-- C7 (amended): when the imports all load and parse successfully and
the `HashMap` iteration happens to enumerate the loaded map in any order
`iterOrder`, the loader returns the concatenation of the imported
programs in that (unspecified) order followed by the original program;
the result is a permutation of the one-copy-each concatenation: the map
is keyed by filename with no duplicate keys, and each entry is exactly
the parsed program of its file. -/
theorem c7_load_shape :
    ∀ (files : String → Option Program) (fuel : Nat) (prog : Program)
      (m iterOrder : Imap) (res : Program),
      importsSelfMap files fuel prog = some m →
      iterOrder.Perm m →
      importsLoad files fuel prog iterOrder = some res →
      res = (iterOrder.foldl (fun a kv => a ++ kv.2) []) ++ prog
      ∧ res.Perm ((m.foldl (fun a kv => a ++ kv.2) []) ++ prog)
      ∧ (m.map Prod.fst).Nodup
      ∧ (∀ kv ∈ m, files kv.1 = some kv.2) := by
  intro files fuel prog m iterOrder res h1 hperm h3
  have hres : res = (iterOrder.foldl (fun a kv => a ++ kv.2) []) ++ prog := by
    rw [importsLoad, h1] at h3
    simp only [Option.some.injEq] at h3
    exact h3.symm
  have hmok : (m.map Prod.fst).Nodup ∧ ∀ kv ∈ m, files kv.1 = some kv.2 := by
    rw [importsSelfMap.eq_def] at h1
    revert h1
    match hl : loadAll files fuel [] prog with
    | none => intro h1; simp at h1
    | some (some m') =>
        intro h1
        simp only [Option.some.injEq] at h1
        subst h1
        exact (loadAll_mOk files fuel).1 [] prog m' hl
    | some none =>
        intro h1
        simp only [Option.some.injEq] at h1
        subst h1
        exact ⟨by simp, by simp⟩
  refine ⟨hres, ?_, hmok.1, hmok.2⟩
  rw [hres, foldlAppend_eq, foldlAppend_eq]
  simp only [List.nil_append]
  exact (hperm.flatMap_right Prod.snd).append_right prog

/-- C7 witness: the shape theorem applied to the concrete two-import
program with the identity enumeration of the loaded map. -/
theorem c7_load_witness :
    ([("a.lox", [Stmt.exprS (.literal (.stringL "A"))]),
      ("b.lox", [Stmt.exprS (.literal (.stringL "B"))])].map Prod.fst).Nodup
    ∧ (∀ kv ∈ [("a.lox", [Stmt.exprS (.literal (.stringL "A"))]),
        ("b.lox", [Stmt.exprS (.literal (.stringL "B"))])],
        filesC7 kv.1 = some kv.2) :=
  (c7_load_shape filesC7 9 progC7 _ _ _ rfl (List.Perm.refl _) rfl).2.2

/-- C7 counterexample: `load` emits the imported programs in the
iteration order of `self.imports` — a `HashMap`, so any enumeration of
its entries can occur.  With imports discovered in the order `a`, `b`,
the reversed enumeration is a valid iteration order and produces
`B ++ A ++ original`, which differs from the discovery-order
concatenation `A ++ B ++ original` the claim requires. -/
theorem c7_iteration_order_counterexample :
    importsSelfMap filesC7 9 progC7
      = some [("a.lox", [Stmt.exprS (.literal (.stringL "A"))]),
              ("b.lox", [Stmt.exprS (.literal (.stringL "B"))])]
    ∧ ([("b.lox", [Stmt.exprS (.literal (.stringL "B"))]),
        ("a.lox", [Stmt.exprS (.literal (.stringL "A"))])].Perm
        [("a.lox", [Stmt.exprS (.literal (.stringL "A"))]),
         ("b.lox", [Stmt.exprS (.literal (.stringL "B"))])])
    ∧ importsLoad filesC7 9 progC7
        [("b.lox", [Stmt.exprS (.literal (.stringL "B"))]),
         ("a.lox", [Stmt.exprS (.literal (.stringL "A"))])]
      = some ([Stmt.exprS (.literal (.stringL "B")),
               Stmt.exprS (.literal (.stringL "A"))] ++ progC7)
    ∧ ([Stmt.exprS (.literal (.stringL "B")),
        Stmt.exprS (.literal (.stringL "A"))] ++ progC7)
      ≠ ([Stmt.exprS (.literal (.stringL "A")),
          Stmt.exprS (.literal (.stringL "B"))] ++ progC7) := by
  refine ⟨rfl, List.Perm.swap _ _ _, rfl, ?_⟩
  intro h
  simp [progC7] at h

end Lox

namespace Lox

theorem jumpTargetsOk_iff (l : List Opcode) : jumpTargetsOk l ↔ instrOk [] l := by
  constructor
  · intro h p t _ hget; exact h p t hget
  · intro h p t hget; exact h p t (by simp) hget

def opTargetBound : Opcode → Nat → Prop
  | .jump t, n => t ≤ n
  | .jumpIfFalse t, n => t ≤ n
  | _, _ => True

theorem instrOk_append_op {exc : List Nat} {l : List Opcode} {op : Opcode}
    (h : instrOk exc l) (hb : opTargetBound op (l.length + 1)) :
    instrOk exc (l ++ [op]) := by
  intro p t hp hget
  rw [List.length_append, List.length_singleton]
  rcases Nat.lt_trichotomy p l.length with hlt | heq | hgt
  · have : (l ++ [op])[p]? = l[p]? := by
      rw [List.getElem?_append_left hlt]
    rw [this] at hget
    exact Nat.le_succ_of_le (h p t hp hget)
  · subst heq
    have : (l ++ [op])[l.length]? = some op := by
      simp
    rw [this] at hget
    rcases hget with hget | hget <;>
      · injection hget with hop
        subst hop
        simpa [opTargetBound] using hb
  · have : (l ++ [op])[p]? = none := by
      rw [List.getElem?_eq_none]
      simp only [List.length_append, List.length_singleton]
      omega
    rw [this] at hget
    rcases hget with hget | hget <;> cases hget

theorem instrOk_append_exempt {exc : List Nat} {l : List Opcode} {op : Opcode}
    (h : instrOk exc l) :
    instrOk (exc ++ [l.length]) (l ++ [op]) := by
  intro p t hp hget
  rw [List.length_append, List.length_singleton]
  rcases Nat.lt_trichotomy p l.length with hlt | heq | hgt
  · have : (l ++ [op])[p]? = l[p]? := by
      rw [List.getElem?_append_left hlt]
    rw [this] at hget
    refine Nat.le_succ_of_le (h p t (fun hc => hp ?_) hget)
    exact List.mem_append_left _ hc
  · subst heq
    exact absurd (List.mem_append_right _ (by simp)) hp
  · have : (l ++ [op])[p]? = none := by
      rw [List.getElem?_eq_none]
      simp only [List.length_append, List.length_singleton]
      omega
    rw [this] at hget
    rcases hget with hget | hget <;> cases hget

theorem instrOk_set {exc : List Nat} {l : List Opcode} {pos : Nat} {op : Opcode}
    (h : instrOk exc l) (hb : opTargetBound op l.length) :
    instrOk exc (l.set pos op) := by
  intro p t hp hget
  rw [List.length_set]
  by_cases hpp : p = pos ∧ pos < l.length
  · obtain ⟨rfl, hlt⟩ := hpp
    rw [List.getElem?_set_self hlt] at hget
    rcases hget with hget | hget <;>
      · injection hget with hop
        subst hop
        simpa [opTargetBound] using hb
  · have : (l.set pos op)[p]? = l[p]? := by
      by_cases hpe : p = pos
      · subst hpe
        have : l.length ≤ p := by omega
        rw [List.getElem?_eq_none (by simpa using this),
          List.getElem?_eq_none this]
      · rw [List.getElem?_set_ne (by omega)]
    rw [this] at hget
    exact h p t hp hget

theorem instrOk_mono {exc exc' : List Nat} {l : List Opcode}
    (hsub : ∀ p, p ∈ exc' → p ∈ exc ∨ l.length ≤ p) (h : instrOk exc' l) :
    instrOk exc l := by
  intro p t hp hget
  refine h p t (fun hc => ?_) hget
  rcases hsub p hc with hc' | hc'
  · exact hp hc'
  · have : l[p]? = none := List.getElem?_eq_none hc'
    rw [this] at hget
    rcases hget with hget | hget <;> cases hget

end Lox
namespace Lox

/-- Combined per-step invariant of the compiler state transitions. -/
def COk (st st' : CState) : Prop :=
  (∀ exc, instrOk exc st.instructions → constsOk st.constants →
    instrOk exc st'.instructions ∧ constsOk st'.constants)
  ∧ (st'.preInstructions = st.preInstructions ∨ st'.preInstructions = [])
  ∧ st'.symbols.outer = st.symbols.outer

theorem COk.refl (st : CState) : COk st st :=
  ⟨fun _ h hc => ⟨h, hc⟩, Or.inl rfl, rfl⟩

theorem COk.trans {st1 st2 st3 : CState} (h1 : COk st1 st2)
    (h2 : COk st2 st3) : COk st1 st3 := by
  refine ⟨fun exc hi hc => ?_, ?_, h2.2.2.trans h1.2.2⟩
  · obtain ⟨hi2, hc2⟩ := h1.1 exc hi hc
    exact h2.1 exc hi2 hc2
  · rcases h2.2.1 with h | h
    · rw [h]; exact h1.2.1
    · exact Or.inr h

theorem COk.emit {st : CState} {op : Opcode}
    (hb : opTargetBound op (st.instructions.length + 1)) :
    COk st (st.emit op) :=
  ⟨fun _ hi hc => ⟨instrOk_append_op hi hb, hc⟩, Or.inl rfl, rfl⟩

theorem COk.pushConstant {st : CState} {c : Obj} (hc : constOk c) :
    COk st (st.pushConstant c) := by
  refine ⟨fun _ hi hcs => ⟨hi, ?_⟩, Or.inl rfl, rfl⟩
  intro x hx
  rcases List.mem_append.1 hx with hx | hx
  · exact hcs x hx
  · rw [List.mem_singleton] at hx; exact hx ▸ hc

theorem COk.withSymbols {st : CState} {t : SymbolTable}
    (ht : t.outer = st.symbols.outer) : COk st (st.withSymbols t) :=
  ⟨fun _ hi hc => ⟨hi, hc⟩, Or.inl rfl, ht⟩

theorem COk.loadSymbol (st : CState) (s : Symbol) :
    COk st (st.loadSymbol s) := by
  rw [CState.loadSymbol]
  cases s.scope <;> exact COk.emit (by trivial)

theorem COk.patch {st st' : CState} {pos : Nat} {op : Opcode}
    (h : st.patch pos op = some st')
    (hb : opTargetBound op st.instructions.length) : COk st st' := by
  rw [CState.patch] at h
  split at h
  · injection h with h
    subst h
    exact ⟨fun _ hi hc => ⟨instrOk_set hi hb, hc⟩, Or.inl rfl, rfl⟩
  · cases h

theorem define_outer (t : SymbolTable) (name : String) :
    ((t.define name).2).outer = t.outer := by
  cases t; rfl

theorem define_numDefinitions (t : SymbolTable) (name : String) :
    ((t.define name).2).numDefinitions = t.numDefinitions + 1 := by
  cases t; rfl

theorem defineFree_outer (t : SymbolTable) (s : Symbol) :
    ((t.defineFree s).2).outer = t.outer := by
  cases t; rfl

theorem resolve_outer (t : SymbolTable) (name : String) :
    ((t.resolve name).2).outer = t.outer := by
  cases t with
  | mk outer store nd fs =>
      rw [SymbolTable.resolve]
      simp only [SymbolTable.store, SymbolTable.outer]
      cases store.lookup name with
      | some symbol => rfl
      | none =>
          simp only
          cases outer with
          | none => rfl
          | some o =>
              simp only
              cases o.resolveLookup name with
              | none => rfl
              | some s =>
                  simp only
                  by_cases hsc : s.scope = Scope.global ∨ s.scope = Scope.builtinS
                  · rw [if_pos hsc]
                  · rw [if_neg hsc]
                    exact defineFree_outer (.mk (some o) store nd fs) s

theorem patchEndif_ok : ∀ (ps : List Nat) (st st' : CState),
    patchEndifJumps st ps = some st' →
    st'.instructions.length = st.instructions.length
    ∧ st'.constants = st.constants
    ∧ st'.preInstructions = st.preInstructions
    ∧ st'.symbols = st.symbols
    ∧ (∀ exc, instrOk (exc ++ ps) st.instructions → instrOk exc st'.instructions)
    ∧ (∀ p ∈ ps, st'.instructions[p]? = some (.jump st.instructions.length))
    ∧ (∀ q, q ∉ ps → st'.instructions[q]? = st.instructions[q]?) := by
  intro ps
  induction ps with
  | nil =>
      intro st st' h
      rw [patchEndifJumps] at h
      injection h with h
      subst h
      exact ⟨rfl, rfl, rfl, rfl, fun exc hi => by simpa using hi,
        by simp, fun q _ => rfl⟩
  | cons p rest ih =>
      intro st st' h
      rw [patchEndifJumps] at h
      revert h
      match hp : st.patch p (.jump st.instructions.length) with
      | none => intro h; cases h
      | some st1 =>
          intro h
          have hps : p < st.instructions.length ∧
              st1 = ⟨st.constants,
                st.instructions.set p (.jump st.instructions.length),
                st.preInstructions, st.symbols⟩ := by
            rw [CState.patch] at hp
            split at hp
            · exact ⟨by assumption, by injection hp with hp; exact hp.symm⟩
            · cases hp
          obtain ⟨hlt, rfl⟩ := hps
          obtain ⟨ih1, ih2, ih3, ih4, ih5, ih6, ih7⟩ := ih _ _ h
          simp only [List.length_set] at ih1
          refine ⟨ih1, ih2, ih3, ih4, ?_, ?_, ?_⟩
          · intro exc hi
            have h1 : instrOk (exc ++ rest)
                (st.instructions.set p (.jump st.instructions.length)) := by
              intro q t hq hget
              rw [List.length_set]
              by_cases hqp : q = p
              · subst hqp
                rw [List.getElem?_set_self hlt] at hget
                rcases hget with hget | hget
                · injection hget with hop
                  injection hop with hop2
                  omega
                · injection hget with hop
                  injection hop
              · rw [List.getElem?_set_ne (by omega)] at hget
                refine hi q t (fun hc => ?_) hget
                rcases List.mem_append.1 hc with hc | hc
                · exact hq (List.mem_append_left _ hc)
                · rcases List.mem_cons.1 hc with hc | hc
                  · exact hqp hc
                  · exact hq (List.mem_append_right _ hc)
            exact ih5 exc h1
          · intro q hq
            rcases List.mem_cons.1 hq with hq | hq
            · subst hq
              by_cases hqr : q ∈ rest
              · have := ih6 q hqr
                rw [this, List.length_set]
              · rw [ih7 q hqr, List.getElem?_set_self hlt]
            · have := ih6 q hq
              rw [this, List.length_set]
          · intro q hq
            have hq1 : q ∉ rest := fun hc => hq (List.mem_cons_of_mem _ hc)
            have hq2 : q ≠ p := fun hc => hq (hc ▸ List.mem_cons_self _ _)
            rw [ih7 q hq1, List.getElem?_set_ne (by omega)]

end Lox
namespace Lox
example (n : Nat) (st : CState) (name : String) (e : ExprType) :
    compileStmt (n+1) st (.var name e)
      = match compileExpr n st e with
        | some st1 =>
            let (symbol, symt) := st1.symbols.define name
            let st2 := st1.withSymbols symt
            if symbol.scope = .global then
              some (st2.emit (.setGlobal symbol.index))
            else
              some (st2.emit (.setLocal symbol.index))
        | none => none := rfl
end Lox
namespace Lox
example (n : Nat) (st st' : CState) (name : String) (e : ExprType)
    (h : compileStmt (n+1) st (.var name e) = some st') : True := by
  simp only [compileStmt] at h
  trivial
end Lox
namespace Lox

theorem instrOk_discharge {exc : List Nat} {q : Nat} {l : List Opcode}
    (h : instrOk (exc ++ [q]) l)
    (hq : ∀ t : Nat, (l[q]? = some (Opcode.jump t) ∨ l[q]? = some (Opcode.jumpIfFalse t)) →
      t ≤ l.length) :
    instrOk exc l := by
  intro p t hp hget
  by_cases hpq : p = q
  · exact hq t (hpq ▸ hget)
  · refine h p t (fun hc => ?_) hget
    rcases List.mem_append.1 hc with hc | hc
    · exact hp hc
    · exact hpq (List.mem_singleton.1 hc)

theorem patch_eq {st st' : CState} {pos : Nat} {op : Opcode}
    (h : st.patch pos op = some st') :
    pos < st.instructions.length
    ∧ st' = ⟨st.constants, st.instructions.set pos op, st.preInstructions,
        st.symbols⟩ := by
  rw [CState.patch] at h
  split at h
  · exact ⟨by assumption, by injection h with h; exact h.symm⟩
  · exact Option.noConfusion h

theorem instrOk_nil (exc : List Nat) : instrOk exc [] := by
  intro p t _ hget
  rcases hget with hget | hget <;> simp at hget

theorem instrOk_singleton_setGlobal (exc : List Nat) (k : Nat) :
    instrOk exc [Opcode.setGlobal k] := by
  intro p t _ hget
  cases p with
  | zero => rcases hget with hget | hget <;> simp at hget
  | succ q => rcases hget with hget | hget <;> simp at hget

theorem len_emit (st : CState) (op : Opcode) :
    (st.emit op).instructions.length = st.instructions.length + 1 := by
  simp [CState.emit]

theorem len_withSymbols (st : CState) (t : SymbolTable) :
    (st.withSymbols t).instructions = st.instructions := rfl

theorem len_pushConstant (st : CState) (o : Obj) :
    (st.pushConstant o).instructions = st.instructions := rfl

theorem len_loadSymbol (st : CState) (s : Symbol) :
    (st.loadSymbol s).instructions.length = st.instructions.length + 1 := by
  cases hs : s.scope <;> simp [CState.loadSymbol, hs, CState.emit]

theorem getElem?_some_lt {l : List Opcode} {p : Nat} {op : Opcode}
    (h : l[p]? = some op) : p < l.length := by
  by_cases hp : p < l.length
  · exact hp
  · rw [List.getElem?_eq_none (Nat.le_of_not_lt hp)] at h
    exact Option.noConfusion h

theorem compile_len_mono : ∀ fuel : Nat,
    (∀ st e st', compileExpr fuel st e = some st' →
      st.instructions.length ≤ st'.instructions.length)
    ∧ (∀ st l st', compileExprList fuel st l = some st' →
      st.instructions.length ≤ st'.instructions.length)
    ∧ (∀ st chain ex endif st' endif',
        compileElseifs fuel st chain ex endif = some (st', endif') →
        st.instructions.length ≤ st'.instructions.length
        ∧ ∀ p ∈ endif, p ∈ endif') := by
  intro fuel
  induction fuel with
  | zero =>
      refine ⟨?_, ?_, ?_⟩
      · intro st e st' h; exact Option.noConfusion h
      · intro st l st' h; exact Option.noConfusion h
      · intro st c ex en st' en' h; exact Option.noConfusion h
  | succ n ih =>
      obtain ⟨ihE, ihEL, ihEI⟩ := ih
      refine ⟨?_, ?_, ?_⟩
      · intro st e st' h
        cases e with
        | infixExpr l op r =>
            simp only [compileExpr] at h
            by_cases hop : op = Token.equal
            · rw [if_pos hop] at h
              revert h
              match l with
              | .identE name =>
                  simp only
                  match hr : (st.symbols.resolve name).1 with
                  | none => intro h; exact Option.noConfusion h
                  | some symbol =>
                      simp only
                      match hx : compileExpr n
                          (st.withSymbols (st.symbols.resolve name).2) r with
                      | none => intro h; exact Option.noConfusion h
                      | some st1 =>
                          intro h
                          injection h with h
                          subst h
                          have h1 : (st.withSymbols
                              (st.symbols.resolve name).2).instructions.length
                              ≤ st1.instructions.length := ihE _ r st1 hx
                          rw [len_withSymbols] at h1
                          rw [len_loadSymbol]
                          omega
              | .thisExpr a => intro h; exact Option.noConfusion h
              | .literal a => intro h; exact Option.noConfusion h
              | .groupingExpr a => intro h; exact Option.noConfusion h
              | .unaryExpr a b => intro h; exact Option.noConfusion h
              | .prefixExpr a b => intro h; exact Option.noConfusion h
              | .infixExpr a b c => intro h; exact Option.noConfusion h
              | .printExpr a => intro h; exact Option.noConfusion h
              | .indexExpr a b => intro h; exact Option.noConfusion h
              | .ifE a b c d => intro h; exact Option.noConfusion h
              | .functionE a b => intro h; exact Option.noConfusion h
              | .call a b => intro h; exact Option.noConfusion h
              | .classInit a b => intro h; exact Option.noConfusion h
              | .classCall a b c => intro h; exact Option.noConfusion h
              | .classGet a b => intro h; exact Option.noConfusion h
              | .thisCall a b => intro h; exact Option.noConfusion h
            · rw [if_neg hop] at h
              revert h
              match hx : compileExpr n st l with
              | none => intro h; exact Option.noConfusion h
              | some st1 =>
                  simp only
                  match hy : compileExpr n st1 r with
                  | none => intro h; exact Option.noConfusion h
                  | some st2 =>
                      simp only
                      intro h
                      have h12 : st.instructions.length
                          ≤ st2.instructions.length :=
                        Nat.le_trans (ihE st l st1 hx) (ihE st1 r st2 hy)
                      cases op <;> try exact Option.noConfusion h
                      case plus | star | slash | mod | minus
                          | greater | less | equalEqual =>
                        injection h with h
                        subst h
                        rw [len_emit]
                        omega
                      case plusSelf =>
                        revert h
                        match l with
                        | .identE name =>
                            simp only
                            match hr : ((st2.emit Opcode.add).symbols.resolve
                                name).1 with
                            | none => intro h; exact Option.noConfusion h
                            | some symbol =>
                                intro h
                                injection h with h
                                subst h
                                rw [len_emit, len_withSymbols, len_emit]
                                omega
                        | .thisExpr a => intro h; exact Option.noConfusion h
                        | .literal a => intro h; exact Option.noConfusion h
                        | .groupingExpr a => intro h; exact Option.noConfusion h
                        | .unaryExpr a b => intro h; exact Option.noConfusion h
                        | .prefixExpr a b => intro h; exact Option.noConfusion h
                        | .infixExpr a b c => intro h; exact Option.noConfusion h
                        | .printExpr a => intro h; exact Option.noConfusion h
                        | .indexExpr a b => intro h; exact Option.noConfusion h
                        | .ifE a b c d => intro h; exact Option.noConfusion h
                        | .functionE a b => intro h; exact Option.noConfusion h
                        | .call a b => intro h; exact Option.noConfusion h
                        | .classInit a b => intro h; exact Option.noConfusion h
                        | .classCall a b c => intro h; exact Option.noConfusion h
                        | .classGet a b => intro h; exact Option.noConfusion h
                        | .thisCall a b => intro h; exact Option.noConfusion h
        | printExpr es =>
            simp only [compileExpr] at h
            revert h
            match hx : compileExprList n st es with
            | none => intro h; exact Option.noConfusion h
            | some st1 =>
                intro h
                injection h with h
                subst h
                have h1 := ihEL st es st1 hx
                rw [len_emit]
                omega
        | prefixExpr op e1 =>
            simp only [compileExpr] at h
            revert h
            match hx : compileExpr n st e1 with
            | none => intro h; exact Option.noConfusion h
            | some st1 =>
                simp only
                intro h
                have h1 := ihE st e1 st1 hx
                cases op <;> try exact Option.noConfusion h
                case minus =>
                  injection h with h
                  subst h
                  rw [len_emit]
                  omega
        | literal lit =>
            simp only [compileExpr] at h
            cases lit <;> try exact Option.noConfusion h
            case number a =>
              injection h with h
              subst h
              rw [len_emit, len_pushConstant]
              omega
            case stringL a =>
              injection h with h
              subst h
              rw [len_emit, len_pushConstant]
              omega
            case boolL a =>
              injection h with h
              subst h
              rw [len_emit, len_pushConstant]
              omega
            case nilL =>
              injection h with h
              subst h
              rw [len_emit, len_pushConstant]
              omega
        | identE name =>
            simp only [compileExpr] at h
            revert h
            match hr : (st.symbols.resolve name).1 with
            | none => intro h; exact Option.noConfusion h
            | some symbol =>
                intro h
                injection h with h
                subst h
                rw [len_loadSymbol, len_withSymbols]
                omega
        | call callee args =>
            simp only [compileExpr] at h
            revert h
            match callee with
            | .identE name =>
                simp only
                match hbi : builtinsGetIndex name with
                | some idx =>
                    simp only
                    match hx : compileExprList n
                        (st.emit (Opcode.getBuiltin idx)) args with
                    | none => intro h; exact Option.noConfusion h
                    | some st2 =>
                        intro h
                        injection h with h
                        subst h
                        have h1 := ihEL _ args st2 hx
                        rw [len_emit] at h1
                        rw [len_emit]
                        omega
                | none =>
                    simp only
                    match hr : (st.symbols.resolve name).1 with
                    | none => intro h; exact Option.noConfusion h
                    | some symbol =>
                        simp only
                        match hx : compileExprList n
                            ((st.withSymbols (st.symbols.resolve name).2).emit
                              (Opcode.getGlobal symbol.index)) args with
                        | none => intro h; exact Option.noConfusion h
                        | some st2 =>
                            intro h
                            injection h with h
                            subst h
                            have h1 := ihEL _ args st2 hx
                            rw [len_emit, len_withSymbols] at h1
                            rw [len_emit]
                            omega
            | .thisExpr a => intro h; exact Option.noConfusion h
            | .literal a => intro h; exact Option.noConfusion h
            | .groupingExpr a => intro h; exact Option.noConfusion h
            | .unaryExpr a b => intro h; exact Option.noConfusion h
            | .prefixExpr a b => intro h; exact Option.noConfusion h
            | .infixExpr a b c => intro h; exact Option.noConfusion h
            | .printExpr a => intro h; exact Option.noConfusion h
            | .indexExpr a b => intro h; exact Option.noConfusion h
            | .ifE a b c d => intro h; exact Option.noConfusion h
            | .functionE a b => intro h; exact Option.noConfusion h
            | .call a b => intro h; exact Option.noConfusion h
            | .classInit a b => intro h; exact Option.noConfusion h
            | .classCall a b c => intro h; exact Option.noConfusion h
            | .classGet a b => intro h; exact Option.noConfusion h
            | .thisCall a b => intro h; exact Option.noConfusion h
        | ifE condition elseif thenB elseB =>
            simp only [compileExpr] at h
            revert h
            match hc : compileExpr n st condition with
            | none => intro h; exact Option.noConfusion h
            | some st1 =>
                simp only
                match hb : compileStmt n (st1.emit (Opcode.jumpIfFalse 0))
                    (Stmt.block thenB) with
                | none => intro h; exact Option.noConfusion h
                | some st3 =>
                    simp only
                    cases elseB with
                    | nil =>
                        match hp : st3.patch st1.instructions.length
                            (Opcode.jumpIfFalse st3.instructions.length) with
                        | none => intro h; exact Option.noConfusion h
                        | some st5 =>
                            simp only
                            match he : compileElseifs n st5 elseif false [] with
                            | none => intro h; exact Option.noConfusion h
                            | some (st6, endif2) =>
                                simp only
                                intro h
                                have hfin := (patchEndif_ok endif2 st6 st' h).1
                                obtain ⟨hmono, _⟩ :=
                                  ihEI st5 elseif false [] st6 endif2 he
                                obtain ⟨hlt, h5⟩ := patch_eq hp
                                have h1 := ihE st condition st1 hc
                                have h5len : st5.instructions.length
                                    = st3.instructions.length := by
                                  rw [h5]
                                  simp
                                omega
                    | cons b bs =>
                        rw [if_pos (show (0:Nat) < (b :: bs).length by simp)]
                        match hp : (st3.emit (Opcode.jump 9999)).patch
                            st1.instructions.length
                            (Opcode.jumpIfFalse
                              (st3.emit
                                (Opcode.jump 9999)).instructions.length) with
                        | none => intro h; exact Option.noConfusion h
                        | some st5 =>
                            simp only
                            match he : compileElseifs n st5 elseif
                                (decide ((b :: bs).length > 0))
                                [(st3.emitReturnPosition
                                  (Opcode.jump 9999)).1] with
                            | none => intro h; exact Option.noConfusion h
                            | some (st6, endif2) =>
                                simp only
                                rw [if_pos
                                  (show (0:Nat) < (b :: bs).length by simp)]
                                match hel : compileStmt n st6
                                    (Stmt.block (b :: bs)) with
                                | none => intro h; exact Option.noConfusion h
                                | some st7 =>
                                    intro h
                                    have hfin := patchEndif_ok endif2 st7 st' h
                                    obtain ⟨hmono, hsub⟩ := ihEI st5 elseif
                                      (decide ((b :: bs).length > 0))
                                      [st3.instructions.length] st6 endif2 he
                                    obtain ⟨hlt, h5⟩ := patch_eq hp
                                    have hpos : st3.instructions.length
                                        ∈ endif2 :=
                                      hsub _ (List.mem_singleton.2 rfl)
                                    have hsome := hfin.2.2.2.2.2.1 _ hpos
                                    have hplt := getElem?_some_lt hsome
                                    have h1 := ihE st condition st1 hc
                                    rw [len_emit] at hlt
                                    omega
        | thisExpr a => exact Option.noConfusion h
        | groupingExpr a => exact Option.noConfusion h
        | unaryExpr a b => exact Option.noConfusion h
        | indexExpr a b => exact Option.noConfusion h
        | functionE a b => exact Option.noConfusion h
        | classInit a b => exact Option.noConfusion h
        | classCall a b c => exact Option.noConfusion h
        | classGet a b => exact Option.noConfusion h
        | thisCall a b => exact Option.noConfusion h
      · intro st l st' h
        cases l with
        | nil =>
            simp only [compileExprList] at h
            injection h with h
            subst h
            exact Nat.le_refl _
        | cons e rest =>
            simp only [compileExprList] at h
            revert h
            match hx : compileExpr n st e with
            | none => intro h; exact Option.noConfusion h
            | some st1 =>
                intro h
                exact Nat.le_trans (ihE st e st1 hx) (ihEL st1 rest st' h)
      · intro st chain ex endif st' endif' h
        cases chain with
        | nil =>
            simp only [compileElseifs] at h
            injection h with h
            injection h with h1 h2
            subst h1
            subst h2
            exact ⟨Nat.le_refl _, fun p hp => hp⟩
        | cons ce rest =>
            obtain ⟨condition, block⟩ := ce
            simp only [compileElseifs] at h
            revert h
            match hx : compileExpr n st condition with
            | none => intro h; exact Option.noConfusion h
            | some st1 =>
                simp only
                match hb : compileStmt n (st1.emit (Opcode.jumpIfFalse 0))
                    (Stmt.block block) with
                | none => intro h; exact Option.noConfusion h
                | some st3 =>
                    simp only
                    cases ex with
                    | false =>
                        match hp : st3.patch st1.instructions.length
                            (Opcode.jumpIfFalse st3.instructions.length) with
                        | none => intro h; exact Option.noConfusion h
                        | some st5 =>
                            simp only
                            intro h
                            obtain ⟨hmono, hsub⟩ :=
                              ihEI st5 rest false endif st' endif' h
                            obtain ⟨hlt, h5⟩ := patch_eq hp
                            have h1 := ihE st condition st1 hx
                            have h5len : st5.instructions.length
                                = st3.instructions.length := by
                              rw [h5]
                              simp
                            exact ⟨by omega, hsub⟩
                    | true =>
                        match hp : (st3.emit (Opcode.jump 9999)).patch
                            st1.instructions.length
                            (Opcode.jumpIfFalse
                              (st3.emit
                                (Opcode.jump 9999)).instructions.length) with
                        | none => intro h; exact Option.noConfusion h
                        | some st5 =>
                            simp only
                            intro h
                            obtain ⟨hmono, hsub⟩ := ihEI st5 rest true
                              (endif ++ [st3.instructions.length]) st' endif' h
                            obtain ⟨hlt, h5⟩ := patch_eq hp
                            have h1 := ihE st condition st1 hx
                            rw [len_emit] at hlt
                            have h5len : st5.instructions.length
                                = st3.instructions.length + 1 := by
                              rw [h5]
                              simp [CState.emit]
                            exact ⟨by omega, fun p hp' =>
                              hsub p (List.mem_append_left _ hp')⟩

theorem compile_COk : ∀ fuel : Nat,
    (∀ st s st', compileStmt fuel st s = some st' → COk st st')
    ∧ (∀ st e st', compileExpr fuel st e = some st' → COk st st')
    ∧ (∀ st l st', compileStmtList fuel st l = some st' → COk st st')
    ∧ (∀ st l st', compileExprList fuel st l = some st' → COk st st')
    ∧ (∀ st args, COk st (defineArgs fuel st args))
    ∧ (∀ st chain ex endif st' endif',
        compileElseifs fuel st chain ex endif = some (st', endif') →
        (∃ newPs, endif' = endif ++ newPs
          ∧ (ex = true → newPs.length = chain.length)
          ∧ (ex = false → newPs = [])
          ∧ ∀ exc, instrOk (exc ++ endif) st.instructions →
              constsOk st.constants →
              instrOk (exc ++ endif') st'.instructions
              ∧ constsOk st'.constants)
        ∧ (st'.preInstructions = st.preInstructions
            ∨ st'.preInstructions = [])
        ∧ st'.symbols.outer = st.symbols.outer) := by
  intro fuel
  induction fuel with
  | zero =>
      refine ⟨?_, ?_, ?_, ?_, ?_, ?_⟩
      · intro st s st' h; exact Option.noConfusion h
      · intro st e st' h; exact Option.noConfusion h
      · intro st l st' h; exact Option.noConfusion h
      · intro st l st' h; exact Option.noConfusion h
      · intro st args; exact COk.refl st
      · intro st chain ex endif st' endif' h; exact Option.noConfusion h
  | succ n ih =>
      obtain ⟨ihS, ihE, ihSL, ihEL, ihDA, ihEI⟩ := ih
      refine ⟨?_, ?_, ?_, ?_, ?_, ?_⟩
      · intro st s st' h
        cases s with
        | exprS e => exact ihE st e st' h
        | var name e =>
            simp only [compileStmt] at h
            revert h
            match hx : compileExpr n st e with
            | none => intro h; exact Option.noConfusion h
            | some st1 =>
                intro h
                simp only at h
                have base : COk st ((st1.withSymbols
                    (st1.symbols.define name).2)) :=
                  (ihE st e st1 hx).trans (COk.withSymbols (define_outer _ _))
                split at h <;>
                · injection h with h
                  subst h
                  exact base.trans (COk.emit (by trivial))
        | block stmts => exact ihSL st stmts st' h
        | function name args body =>
            simp only [compileStmt] at h
            revert h
            match hx : compileStmtList n (defineArgs n
                (((st.withSymbols (st.symbols.define name).2).enterScope).emit
                  (Opcode.setGlobal (st.symbols.define name).1.index)) args)
                body with
            | none => intro h; exact Option.noConfusion h
            | some st4 =>
                simp only
                match hls : st4.leaveScope with
                | none => intro h; exact Option.noConfusion h
                | some (instraction, st5) =>
                    simp only
                    intro h
                    injection h with h
                    subst h
                    rw [CState.leaveScope] at hls
                    revert hls
                    match ho : st4.symbols.outer with
                    | none => intro hls; exact Option.noConfusion hls
                    | some o =>
                        intro hls
                        injection hls with hls
                        injection hls with h1 h2
                        subst h1
                        subst h2
                        have hBD : COk
                            (((st.withSymbols
                              (st.symbols.define name).2).enterScope).emit
                                (Opcode.setGlobal
                                  (st.symbols.define name).1.index)) st4 :=
                          (ihDA _ args).trans (ihSL _ body st4 hx)
                        have hoo : some o
                            = some ((st.symbols.define name).2) :=
                          ho.symm.trans hBD.2.2
                        injection hoo with hoo
                        refine ⟨?_, Or.inr rfl, ?_⟩
                        · intro exc hi hcs
                          obtain ⟨hi4, hc4⟩ := hBD.1 []
                            (instrOk_singleton_setGlobal [] _) hcs
                          have hi5 : instrOk exc st4.preInstructions := by
                            rcases hBD.2.1 with hd | hd
                            · rw [hd]
                              exact hi
                            · rw [hd]
                              exact instrOk_nil exc
                          have hcf : constOk (Obj.compiledFunction
                              st4.instructions o.numDefinitions
                              args.length) :=
                            (jumpTargetsOk_iff _).2 hi4
                          exact ((((@COk.pushConstant _ _ hcf).trans
                            (@COk.emit _ (Opcode.loadConstant _)
                              (by trivial))).trans
                              (@COk.emit _ (Opcode.closure _ _)
                                (by trivial))).trans
                                (@COk.emit _ (Opcode.setGlobal _)
                                  (by trivial))).1 exc hi5 hc4
                        · show o.outer = st.symbols.outer
                          rw [hoo]
                          exact define_outer st.symbols name
        | forS init conditions step block =>
            simp only [compileStmt] at h
            revert h
            match hx : compileStmt n st init with
            | none => intro h; exact Option.noConfusion h
            | some st1 =>
                simp only
                match hy : compileExpr n st1 conditions with
                | none => intro h; exact Option.noConfusion h
                | some st2 =>
                    simp only
                    match hb : compileStmt n (st2.emit (Opcode.jumpIfFalse 0))
                        (Stmt.block block) with
                    | none => intro h; exact Option.noConfusion h
                    | some st4 =>
                        simp only
                        match hs2 : compileStmt n st4 step with
                        | none => intro h; exact Option.noConfusion h
                        | some st5 =>
                            intro h
                            have hA : COk st st5 :=
                              (((ihS st init st1 hx).trans
                                (ihE st1 conditions st2 hy)).trans
                                  ((COk.emit (show (0:Nat) ≤ _ from
                                    Nat.zero_le _)).trans
                                    (ihS _ _ st4 hb))).trans
                                      (ihS st4 step st5 hs2)
                            have hstart : st1.instructions.length
                                ≤ st2.instructions.length :=
                              (compile_len_mono n).1 st1 conditions st2 hy
                            obtain ⟨hlt, heq⟩ := patch_eq h
                            have hlt' : st2.instructions.length
                                < st5.instructions.length + 1 := by
                              rw [len_emit] at hlt
                              exact hlt
                            subst heq
                            refine ⟨?_, ?_, hA.2.2⟩
                            · intro exc hi hc
                              obtain ⟨hi5, hc5⟩ := hA.1 exc hi hc
                              refine ⟨?_, hc5⟩
                              show instrOk exc ((st5.instructions
                                ++ [Opcode.jump st1.instructions.length]).set
                                  st2.instructions.length
                                  (Opcode.jumpIfFalse (st5.instructions
                                    ++ [Opcode.jump
                                      st1.instructions.length]).length))
                              have hi6 : instrOk
                                  (exc ++ [st5.instructions.length])
                                  (st5.instructions ++ [Opcode.jump
                                    st1.instructions.length]) :=
                                instrOk_append_exempt hi5
                              have hi7 : instrOk
                                  (exc ++ [st5.instructions.length])
                                  ((st5.instructions ++ [Opcode.jump
                                    st1.instructions.length]).set
                                    st2.instructions.length
                                    (Opcode.jumpIfFalse (st5.instructions
                                      ++ [Opcode.jump
                                        st1.instructions.length]).length)) :=
                                instrOk_set hi6 (Nat.le_refl _)
                              refine instrOk_discharge hi7 ?_
                              intro t hget
                              rw [List.length_set]
                              by_cases hje : st2.instructions.length
                                  = st5.instructions.length
                              · rw [← hje] at hget
                                rw [List.getElem?_set_self
                                  (by simp; omega)] at hget
                                rcases hget with hget | hget
                                · injection hget with h1; injection h1
                                · injection hget with h1
                                  injection h1 with h2
                                  omega
                              · rw [List.getElem?_set_ne hje] at hget
                                have hval : (st5.instructions ++ [Opcode.jump
                                    st1.instructions.length])[
                                      st5.instructions.length]?
                                    = some (Opcode.jump
                                      st1.instructions.length) := by
                                  simp
                                rw [hval] at hget
                                rcases hget with hget | hget
                                · injection hget with h1
                                  injection h1 with h2
                                  subst h2
                                  simp only [List.length_append,
                                    List.length_singleton]
                                  omega
                                · injection hget with h1; injection h1
                            · rcases hA.2.1 with hp | hp
                              · exact Or.inl hp
                              · exact Or.inr hp
        | assert condition message =>
            simp only [compileStmt] at h
            revert h
            match hx : compileExpr n st condition with
            | none => intro h; exact Option.noConfusion h
            | some st1 =>
                simp only
                split
                · intro h
                  injection h with h
                  subst h
                  exact (ihE st condition st1 hx).trans (COk.emit (by trivial))
                · match hy : compileExpr n (st1.emit (.assert 0)) message with
                  | none => intro h; exact Option.noConfusion h
                  | some st3 =>
                      intro h
                      exact ((((ihE st condition st1 hx).trans
                        (COk.emit (by trivial))).trans
                          (ihE _ message st3 hy)).trans
                            ((COk.emit (by trivial)).trans
                              (COk.emit (by trivial)))).trans
                                (COk.patch h (by trivial))
        | assign target value =>
            simp only [compileStmt] at h
            revert h
            match target with
            | .identE name =>
                simp only
                match hr : (st.symbols.resolve name).1 with
                | none => intro h; exact Option.noConfusion h
                | some symbol =>
                    simp only
                    match hx : compileExpr n
                        (st.withSymbols (st.symbols.resolve name).2) value with
                    | none => intro h; exact Option.noConfusion h
                    | some st1 =>
                        intro h
                        injection h with h
                        subst h
                        exact ((COk.withSymbols (resolve_outer _ _)).trans
                          (ihE _ value st1 hx)).trans (COk.loadSymbol st1 symbol)
            | .thisExpr a => intro h; exact Option.noConfusion h
            | .literal a => intro h; exact Option.noConfusion h
            | .groupingExpr a => intro h; exact Option.noConfusion h
            | .unaryExpr a b => intro h; exact Option.noConfusion h
            | .prefixExpr a b => intro h; exact Option.noConfusion h
            | .infixExpr a b c => intro h; exact Option.noConfusion h
            | .printExpr a => intro h; exact Option.noConfusion h
            | .indexExpr a b => intro h; exact Option.noConfusion h
            | .ifE a b c d => intro h; exact Option.noConfusion h
            | .functionE a b => intro h; exact Option.noConfusion h
            | .call a b => intro h; exact Option.noConfusion h
            | .classInit a b => intro h; exact Option.noConfusion h
            | .classCall a b c => intro h; exact Option.noConfusion h
            | .classGet a b => intro h; exact Option.noConfusion h
            | .thisCall a b => intro h; exact Option.noConfusion h
        | returnS e =>
            simp only [compileStmt] at h
            revert h
            match hx : compileExpr n st e with
            | none => intro h; exact Option.noConfusion h
            | some st1 =>
                intro h
                injection h with h
                subst h
                exact (ihE st e st1 hx).trans (COk.emit (by trivial))
        | blank => exact Option.noConfusion h
        | switch a b => exact Option.noConfusion h
        | case a b => exact Option.noConfusion h
        | defaultS a => exact Option.noConfusion h
        | whileS a b => exact Option.noConfusion h
        | importS a => exact Option.noConfusion h
        | classStmt a b => exact Option.noConfusion h
        | forIn a b c => exact Option.noConfusion h
        | classInitS a b => exact Option.noConfusion h
      · intro st e st' h
        cases e with
        | infixExpr l op r =>
            simp only [compileExpr] at h
            by_cases hop : op = Token.equal
            · rw [if_pos hop] at h
              revert h
              match l with
              | .identE name =>
                  simp only
                  match hr : (st.symbols.resolve name).1 with
                  | none => intro h; exact Option.noConfusion h
                  | some symbol =>
                      simp only
                      match hx : compileExpr n
                          (st.withSymbols (st.symbols.resolve name).2) r with
                      | none => intro h; exact Option.noConfusion h
                      | some st1 =>
                          intro h
                          injection h with h
                          subst h
                          exact ((COk.withSymbols (resolve_outer _ _)).trans
                            (ihE _ r st1 hx)).trans (COk.loadSymbol st1 symbol)
              | .thisExpr a => intro h; exact Option.noConfusion h
              | .literal a => intro h; exact Option.noConfusion h
              | .groupingExpr a => intro h; exact Option.noConfusion h
              | .unaryExpr a b => intro h; exact Option.noConfusion h
              | .prefixExpr a b => intro h; exact Option.noConfusion h
              | .infixExpr a b c => intro h; exact Option.noConfusion h
              | .printExpr a => intro h; exact Option.noConfusion h
              | .indexExpr a b => intro h; exact Option.noConfusion h
              | .ifE a b c d => intro h; exact Option.noConfusion h
              | .functionE a b => intro h; exact Option.noConfusion h
              | .call a b => intro h; exact Option.noConfusion h
              | .classInit a b => intro h; exact Option.noConfusion h
              | .classCall a b c => intro h; exact Option.noConfusion h
              | .classGet a b => intro h; exact Option.noConfusion h
              | .thisCall a b => intro h; exact Option.noConfusion h
            · rw [if_neg hop] at h
              revert h
              match hx : compileExpr n st l with
              | none => intro h; exact Option.noConfusion h
              | some st1 =>
                  simp only
                  match hy : compileExpr n st1 r with
                  | none => intro h; exact Option.noConfusion h
                  | some st2 =>
                      simp only
                      intro h
                      have h12 : COk st st2 :=
                        (ihE st l st1 hx).trans (ihE st1 r st2 hy)
                      cases op <;> try exact Option.noConfusion h
                      case plus | star | slash | mod | minus
                          | greater | less | equalEqual =>
                        injection h with h
                        subst h
                        exact h12.trans (COk.emit (by trivial))
                      case plusSelf =>
                        revert h
                        match l with
                        | .identE name =>
                            simp only
                            match hr : ((st2.emit Opcode.add).symbols.resolve
                                name).1 with
                            | none => intro h; exact Option.noConfusion h
                            | some symbol =>
                                intro h
                                injection h with h
                                subst h
                                exact (h12.trans
                                  (COk.emit (by trivial))).trans
                                    ((COk.withSymbols
                                      (resolve_outer _ _)).trans
                                      (COk.emit (by trivial)))
                        | .thisExpr a => intro h; exact Option.noConfusion h
                        | .literal a => intro h; exact Option.noConfusion h
                        | .groupingExpr a => intro h; exact Option.noConfusion h
                        | .unaryExpr a b => intro h; exact Option.noConfusion h
                        | .prefixExpr a b => intro h; exact Option.noConfusion h
                        | .infixExpr a b c => intro h; exact Option.noConfusion h
                        | .printExpr a => intro h; exact Option.noConfusion h
                        | .indexExpr a b => intro h; exact Option.noConfusion h
                        | .ifE a b c d => intro h; exact Option.noConfusion h
                        | .functionE a b => intro h; exact Option.noConfusion h
                        | .call a b => intro h; exact Option.noConfusion h
                        | .classInit a b => intro h; exact Option.noConfusion h
                        | .classCall a b c => intro h; exact Option.noConfusion h
                        | .classGet a b => intro h; exact Option.noConfusion h
                        | .thisCall a b => intro h; exact Option.noConfusion h
        | printExpr es =>
            simp only [compileExpr] at h
            revert h
            match hx : compileExprList n st es with
            | none => intro h; exact Option.noConfusion h
            | some st1 =>
                intro h
                injection h with h
                subst h
                exact (ihEL st es st1 hx).trans (COk.emit (by trivial))
        | prefixExpr op e1 =>
            simp only [compileExpr] at h
            revert h
            match hx : compileExpr n st e1 with
            | none => intro h; exact Option.noConfusion h
            | some st1 =>
                simp only
                intro h
                cases op <;> try exact Option.noConfusion h
                case minus =>
                  injection h with h
                  subst h
                  exact (ihE st e1 st1 hx).trans (COk.emit (by trivial))
        | literal lit =>
            simp only [compileExpr] at h
            cases lit <;> try exact Option.noConfusion h
            case number a =>
              injection h with h
              subst h
              exact (COk.pushConstant (by trivial)).trans
                (COk.emit (by trivial))
            case stringL a =>
              injection h with h
              subst h
              exact (COk.pushConstant (by trivial)).trans
                (COk.emit (by trivial))
            case boolL a =>
              injection h with h
              subst h
              exact (COk.pushConstant (by trivial)).trans
                (COk.emit (by trivial))
            case nilL =>
              injection h with h
              subst h
              exact (COk.pushConstant (by trivial)).trans
                (COk.emit (by trivial))
        | identE name =>
            simp only [compileExpr] at h
            revert h
            match hr : (st.symbols.resolve name).1 with
            | none => intro h; exact Option.noConfusion h
            | some symbol =>
                intro h
                injection h with h
                subst h
                exact (COk.withSymbols (resolve_outer _ _)).trans
                  (COk.loadSymbol _ symbol)
        | call callee args =>
            simp only [compileExpr] at h
            revert h
            match callee with
            | .identE name =>
                simp only
                match hbi : builtinsGetIndex name with
                | some idx =>
                    simp only
                    match hx : compileExprList n
                        (st.emit (Opcode.getBuiltin idx)) args with
                    | none => intro h; exact Option.noConfusion h
                    | some st2 =>
                        intro h
                        injection h with h
                        subst h
                        exact ((COk.emit (by trivial)).trans
                          (ihEL _ args st2 hx)).trans (COk.emit (by trivial))
                | none =>
                    simp only
                    match hr : (st.symbols.resolve name).1 with
                    | none => intro h; exact Option.noConfusion h
                    | some symbol =>
                        simp only
                        match hx : compileExprList n
                            ((st.withSymbols (st.symbols.resolve name).2).emit
                              (Opcode.getGlobal symbol.index)) args with
                        | none => intro h; exact Option.noConfusion h
                        | some st2 =>
                            intro h
                            injection h with h
                            subst h
                            exact (((COk.withSymbols
                              (resolve_outer _ _)).trans
                                (COk.emit (by trivial))).trans
                                  (ihEL _ args st2 hx)).trans
                                    (COk.emit (by trivial))
            | .thisExpr a => intro h; exact Option.noConfusion h
            | .literal a => intro h; exact Option.noConfusion h
            | .groupingExpr a => intro h; exact Option.noConfusion h
            | .unaryExpr a b => intro h; exact Option.noConfusion h
            | .prefixExpr a b => intro h; exact Option.noConfusion h
            | .infixExpr a b c => intro h; exact Option.noConfusion h
            | .printExpr a => intro h; exact Option.noConfusion h
            | .indexExpr a b => intro h; exact Option.noConfusion h
            | .ifE a b c d => intro h; exact Option.noConfusion h
            | .functionE a b => intro h; exact Option.noConfusion h
            | .call a b => intro h; exact Option.noConfusion h
            | .classInit a b => intro h; exact Option.noConfusion h
            | .classCall a b c => intro h; exact Option.noConfusion h
            | .classGet a b => intro h; exact Option.noConfusion h
            | .thisCall a b => intro h; exact Option.noConfusion h
        | ifE condition elseif thenB elseB =>
            simp only [compileExpr] at h
            revert h
            match hc : compileExpr n st condition with
            | none => intro h; exact Option.noConfusion h
            | some st1 =>
                simp only
                match hb : compileStmt n (st1.emit (Opcode.jumpIfFalse 0))
                    (Stmt.block thenB) with
                | none => intro h; exact Option.noConfusion h
                | some st3 =>
                    simp only
                    cases elseB with
                    | nil =>
                        match hp : st3.patch st1.instructions.length
                            (Opcode.jumpIfFalse st3.instructions.length) with
                        | none => intro h; exact Option.noConfusion h
                        | some st5 =>
                            simp only
                            match he : compileElseifs n st5 elseif false [] with
                            | none => intro h; exact Option.noConfusion h
                            | some (st6, endif2) =>
                                simp only
                                intro h
                                obtain ⟨⟨newPs, hnp, hT, hF, htrans⟩, hpre6,
                                  houter6⟩ := ihEI st5 elseif false [] st6
                                    endif2 he
                                rw [hF rfl, List.nil_append] at hnp
                                subst hnp
                                injection h with h
                                subst h
                                have hA : COk st st5 :=
                                  (((ihE st condition st1 hc).trans
                                    (COk.emit (show (0:Nat) ≤ _ from
                                      Nat.zero_le _))).trans
                                    (ihS _ _ st3 hb)).trans
                                      (COk.patch hp (Nat.le_refl _))
                                refine ⟨?_, ?_, houter6.trans hA.2.2⟩
                                · intro exc hi hcs
                                  obtain ⟨hi5, hc5⟩ := hA.1 exc hi hcs
                                  have hres := htrans exc (by
                                    rwa [List.append_nil]) hc5
                                  rw [List.append_nil] at hres
                                  exact hres
                                · rcases hpre6 with h6 | h6
                                  · rcases hA.2.1 with h5 | h5
                                    · exact Or.inl (h6.trans h5)
                                    · exact Or.inr (h6.trans h5)
                                  · exact Or.inr h6
                    | cons b bs =>
                        rw [if_pos (show (0:Nat) < (b :: bs).length by simp)]
                        match hp : (st3.emit (Opcode.jump 9999)).patch
                            st1.instructions.length
                            (Opcode.jumpIfFalse
                              (st3.emit
                                (Opcode.jump 9999)).instructions.length) with
                        | none => intro h; exact Option.noConfusion h
                        | some st5 =>
                            simp only
                            match he : compileElseifs n st5 elseif
                                (decide ((b :: bs).length > 0))
                                [(st3.emitReturnPosition
                                  (Opcode.jump 9999)).1] with
                            | none => intro h; exact Option.noConfusion h
                            | some (st6, endif2) =>
                                simp only
                                rw [if_pos
                                  (show (0:Nat) < (b :: bs).length by simp)]
                                match hel : compileStmt n st6
                                    (Stmt.block (b :: bs)) with
                                | none => intro h; exact Option.noConfusion h
                                | some st7 =>
                                    intro h
                                    have hfin := patchEndif_ok endif2 st7 st' h
                                    obtain ⟨⟨newPs, hnp, hT, hF, htrans⟩,
                                      hpre6, houter6⟩ := ihEI st5 elseif
                                        (decide ((b :: bs).length > 0))
                                        [(st3.emitReturnPosition
                                          (Opcode.jump 9999)).1] st6 endif2 he
                                    have hB : COk st6 st7 :=
                                      ihS st6 (Stmt.block (b :: bs)) st7 hel
                                    have hA : COk st st3 :=
                                      ((ihE st condition st1 hc).trans
                                        (COk.emit (show (0:Nat) ≤ _ from
                                          Nat.zero_le _))).trans
                                        (ihS _ _ st3 hb)
                                    obtain ⟨hplt, hst5⟩ := patch_eq hp
                                    refine ⟨?_, ?_, ?_⟩
                                    · intro exc hi hcs
                                      obtain ⟨hi3, hc3⟩ := hA.1 exc hi hcs
                                      have hi4 : instrOk (exc ++
                                          [st3.instructions.length])
                                          (st3.instructions ++ [Opcode.jump
                                            9999]) :=
                                        instrOk_append_exempt hi3
                                      have hi5 : instrOk (exc ++
                                          [st3.instructions.length])
                                          st5.instructions := by
                                        rw [hst5]
                                        exact instrOk_set hi4 (Nat.le_refl _)
                                      have hc5 : constsOk st5.constants := by
                                        rw [hst5]
                                        exact hc3
                                      obtain ⟨hi6, hc6⟩ := htrans exc hi5 hc5
                                      obtain ⟨hi7, hc7⟩ :=
                                        hB.1 (exc ++ endif2) hi6 hc6
                                      refine ⟨hfin.2.2.2.2.1 exc hi7, ?_⟩
                                      rw [hfin.2.1]
                                      exact hc7
                                    · rw [hfin.2.2.1]
                                      rcases hB.2.1 with h7 | h7
                                      · rw [h7]
                                        rcases hpre6 with h6 | h6
                                        · rw [h6]
                                          have h5 : st5.preInstructions
                                              = st3.preInstructions := by
                                            rw [hst5]
                                            rfl
                                          rw [h5]
                                          exact hA.2.1
                                        · exact Or.inr h6
                                      · exact Or.inr h7
                                    · rw [hfin.2.2.2.1]
                                      rw [hB.2.2, houter6]
                                      have h5 : st5.symbols = st3.symbols := by
                                        rw [hst5]
                                        rfl
                                      rw [h5]
                                      exact hA.2.2
        | thisExpr a => exact Option.noConfusion h
        | groupingExpr a => exact Option.noConfusion h
        | unaryExpr a b => exact Option.noConfusion h
        | indexExpr a b => exact Option.noConfusion h
        | functionE a b => exact Option.noConfusion h
        | classInit a b => exact Option.noConfusion h
        | classCall a b c => exact Option.noConfusion h
        | classGet a b => exact Option.noConfusion h
        | thisCall a b => exact Option.noConfusion h
      · intro st l st' h
        cases l with
        | nil =>
            simp only [compileStmtList] at h
            injection h with h
            subst h
            exact COk.refl st
        | cons s rest =>
            simp only [compileStmtList] at h
            revert h
            match hx : compileStmt n st s with
            | none => intro h; exact Option.noConfusion h
            | some st1 =>
                intro h
                exact (ihS st s st1 hx).trans (ihSL st1 rest st' h)
      · intro st l st' h
        cases l with
        | nil =>
            simp only [compileExprList] at h
            injection h with h
            subst h
            exact COk.refl st
        | cons e rest =>
            simp only [compileExprList] at h
            revert h
            match hx : compileExpr n st e with
            | none => intro h; exact Option.noConfusion h
            | some st1 =>
                intro h
                exact (ihE st e st1 hx).trans (ihEL st1 rest st' h)
      · intro st args
        cases args with
        | nil => simp only [defineArgs]; exact COk.refl st
        | cons a rest =>
            simp only [defineArgs]
            exact ((COk.withSymbols (define_outer _ _)).trans
              (COk.emit (by trivial))).trans (ihDA _ rest)
      · intro st chain ex endif st' endif' h
        cases chain with
        | nil =>
            simp only [compileElseifs] at h
            injection h with h
            injection h with h1 h2
            subst h1
            subst h2
            exact ⟨⟨[], (List.append_nil endif).symm, fun _ => rfl,
              fun _ => rfl, fun exc hi hc => ⟨hi, hc⟩⟩, Or.inl rfl, rfl⟩
        | cons ce rest =>
            obtain ⟨condition, block⟩ := ce
            simp only [compileElseifs] at h
            revert h
            match hx : compileExpr n st condition with
            | none => intro h; exact Option.noConfusion h
            | some st1 =>
                simp only
                match hb : compileStmt n (st1.emit (Opcode.jumpIfFalse 0))
                    (Stmt.block block) with
                | none => intro h; exact Option.noConfusion h
                | some st3 =>
                    simp only
                    cases ex with
                    | false =>
                        match hp : st3.patch st1.instructions.length
                            (Opcode.jumpIfFalse st3.instructions.length) with
                        | none => intro h; exact Option.noConfusion h
                        | some st5 =>
                            simp only
                            intro h
                            obtain ⟨⟨newPs, hnp, hT, hF, htrans⟩, hpre,
                              houter⟩ :=
                              ihEI st5 rest false endif st' endif' h
                            have hA : COk st st5 :=
                              (((ihE st condition st1 hx).trans
                                (COk.emit (show (0:Nat) ≤ _ from
                                  Nat.zero_le _))).trans
                                (ihS _ _ st3 hb)).trans
                                  (COk.patch hp (Nat.le_refl _))
                            refine ⟨⟨newPs, hnp, ?_, fun _ => hF rfl, ?_⟩,
                              ?_, houter.trans hA.2.2⟩
                            · exact fun hcon => Bool.noConfusion hcon
                            · intro exc hi hc
                              obtain ⟨hi5, hc5⟩ := hA.1 (exc ++ endif) hi hc
                              exact htrans exc hi5 hc5
                            · rcases hpre with h6 | h6
                              · rcases hA.2.1 with h5 | h5
                                · exact Or.inl (h6.trans h5)
                                · exact Or.inr (h6.trans h5)
                              · exact Or.inr h6
                    | true =>
                        match hp : (st3.emit (Opcode.jump 9999)).patch
                            st1.instructions.length
                            (Opcode.jumpIfFalse
                              (st3.emit
                                (Opcode.jump 9999)).instructions.length) with
                        | none => intro h; exact Option.noConfusion h
                        | some st5 =>
                            simp only
                            intro h
                            obtain ⟨⟨newPs, hnp, hT, hF, htrans⟩, hpre,
                              houter⟩ := ihEI st5 rest true
                                (endif ++ [st3.instructions.length]) st'
                                  endif' h
                            obtain ⟨hplt, hst5⟩ := patch_eq hp
                            have hA : COk st st3 :=
                              ((ihE st condition st1 hx).trans
                                (COk.emit (show (0:Nat) ≤ _ from
                                  Nat.zero_le _))).trans
                                (ihS _ _ st3 hb)
                            refine ⟨⟨[st3.instructions.length] ++ newPs,
                              ?_, ?_, ?_, ?_⟩, ?_, ?_⟩
                            · rw [hnp, List.append_assoc]
                            · intro _
                              simp only [List.length_append,
                                List.length_cons, List.length_singleton,
                                List.length_nil, hT rfl]
                              omega
                            · exact fun hcon => Bool.noConfusion hcon
                            · intro exc hi hc
                              obtain ⟨hi3, hc3⟩ := hA.1 (exc ++ endif) hi hc
                              have hi4 : instrOk ((exc ++ endif)
                                  ++ [st3.instructions.length])
                                  (st3.instructions ++ [Opcode.jump 9999]) :=
                                instrOk_append_exempt hi3
                              rw [List.append_assoc] at hi4
                              have hi5 : instrOk (exc ++ (endif
                                  ++ [st3.instructions.length]))
                                  st5.instructions := by
                                rw [hst5]
                                exact instrOk_set hi4 (Nat.le_refl _)
                              have hc5 : constsOk st5.constants := by
                                rw [hst5]
                                exact hc3
                              exact htrans exc hi5 hc5
                            · rcases hpre with h6 | h6
                              · have h5 : st5.preInstructions
                                    = st3.preInstructions := by
                                  rw [hst5]
                                  rfl
                                rw [h6, h5]
                                exact hA.2.1
                              · exact Or.inr h6
                            · have h5 : st5.symbols = st3.symbols := by
                                rw [hst5]
                                rfl
                              rw [houter, h5]
                              exact hA.2.2


/-- C5 counterexample: compiling `fun f(x, y) {}` emits a
`CompiledFunction` constant whose `num_locals` field is 1, although the
function's own scope holds two definitions (the parameters `x` and
`y`, as `num_parameters = 2` records): compiler.rs line 76 reads
`num_definitions` only after `leave_scope` (line 74) has already
restored the enclosing symbol table. -/
theorem c5_num_locals_counterexample :
    (compileProgram 9 [Stmt.function "f" ["x", "y"] []]).map
        (fun st => st.constants)
      = some [Obj.compiledFunction
          [Opcode.setGlobal 0, Opcode.setGlobal 0, Opcode.setGlobal 1] 1 2]
    ∧ (1 : Nat) ≠ ["x", "y"].length :=
  ⟨rfl, by decide⟩

/-- C5 (amended): for every successfully compiled function statement,
the `num_locals` of the emitted `CompiledFunction` constant (always the
last constant pushed) equals the number of definitions in the
*enclosing* scope after the function's own name has been defined there
— not the inner scope's parameter-plus-body count. -/
theorem c5_num_locals_enclosing_scope :
    ∀ (fuel : Nat) (st : CState) (name : String) (args : List String)
      (body : List Stmt) (st' : CState),
    compileStmt (fuel + 1) st (.function name args body) = some st' →
    ∃ instrs, st'.constants.getLast?
      = some (Obj.compiledFunction instrs
          ((st.symbols.define name).2.numDefinitions) args.length) := by
  intro fuel st name args body st' h
  simp only [compileStmt] at h
  revert h
  match hx : compileStmtList fuel (defineArgs fuel
      (((st.withSymbols (st.symbols.define name).2).enterScope).emit
        (Opcode.setGlobal (st.symbols.define name).1.index)) args)
      body with
  | none => intro h; exact Option.noConfusion h
  | some st4 =>
      simp only
      match hls : st4.leaveScope with
      | none => intro h; exact Option.noConfusion h
      | some (instraction, st5) =>
          simp only
          intro h
          injection h with h
          subst h
          rw [CState.leaveScope] at hls
          revert hls
          match ho : st4.symbols.outer with
          | none => intro hls; exact Option.noConfusion hls
          | some o =>
              intro hls
              injection hls with hls
              injection hls with h1 h2
              subst h1
              subst h2
              have hBD : COk
                  (((st.withSymbols
                    (st.symbols.define name).2).enterScope).emit
                      (Opcode.setGlobal
                        (st.symbols.define name).1.index)) st4 :=
                ((compile_COk fuel).2.2.2.2.1 _ args).trans
                  ((compile_COk fuel).2.2.1 _ body st4 hx)
              have hoo : some o = some ((st.symbols.define name).2) :=
                ho.symm.trans hBD.2.2
              injection hoo with hoo
              subst hoo
              exact ⟨st4.instructions, List.getLast?_concat _⟩

/-- C5 witness: the amended statement evaluated on `fun f(x, y) {}`
from a fresh compiler. -/
theorem c5_num_locals_witness :
    ∃ instrs,
      (⟨[Obj.compiledFunction [Opcode.setGlobal 0, Opcode.setGlobal 0,
          Opcode.setGlobal 1] 1 2],
        [Opcode.loadConstant 0, Opcode.closure 0 1, Opcode.setGlobal 0],
        [], (CState.new.symbols.define "f").2⟩ : CState).constants.getLast?
      = some (Obj.compiledFunction instrs
          ((CState.new.symbols.define "f").2.numDefinitions)
          ["x", "y"].length) :=
  c5_num_locals_enclosing_scope 8 CState.new "f" ["x", "y"] [] _ rfl

/-- C6 counterexample: in `if (true) { print "a"; } else if (true)
{ print "b"; }` (no `else`), the compiler emits no end-of-branch jump,
so after the first branch body runs, control falls through into the
else-if condition and body: the VM prints both `"a "` and `"b "`. -/
theorem c6_elseif_without_else_falls_through :
    vmWrites 99 progC6 = some ["a ", "b "] := rfl

/-- C6 (amended): (1) every successful compile yields instructions
whose `Jump`/`JumpIfFalse` targets all lie within
`[0, instruction_count]`, also inside every `CompiledFunction`
constant; (2) when an `else` branch exists, the compiler records one
end-of-branch `Jump` per branch body (`1 + elseif.length` of them) and
patches every one of them to the single shared end-of-if index. -/
theorem c6_jump_targets_and_shared_end :
    (∀ (fuel : Nat) (prog : Program) (st' : CState),
      compileProgram fuel prog = some st' →
      jumpTargetsOk st'.instructions ∧ constsOk st'.constants)
    ∧ (∀ (fuel : Nat) (st : CState) (condition : ExprType)
        (elseif : List (ExprType × List Stmt)) (thenB : List Stmt)
        (b : Stmt) (bs : List Stmt) (st' : CState),
        compileExpr (fuel + 1) st
          (.ifE condition elseif thenB (b :: bs)) = some st' →
        ∃ ps : List Nat, ps.length = 1 + elseif.length
          ∧ ∀ p ∈ ps, st'.instructions[p]?
              = some (Opcode.jump st'.instructions.length)) := by
  constructor
  · intro fuel prog st' h
    have hC : COk CState.new st' := (compile_COk fuel).2.2.1 _ prog st' h
    have hres := hC.1 [] (instrOk_nil [])
      (fun x hx => absurd hx (List.not_mem_nil x))
    exact ⟨(jumpTargetsOk_iff _).2 hres.1, hres.2⟩
  · intro fuel st condition elseif thenB b bs st' h
    simp only [compileExpr] at h
    revert h
    match hc : compileExpr fuel st condition with
    | none => intro h; exact Option.noConfusion h
    | some st1 =>
        simp only
        match hb : compileStmt fuel (st1.emit (Opcode.jumpIfFalse 0))
            (Stmt.block thenB) with
        | none => intro h; exact Option.noConfusion h
        | some st3 =>
            simp only
            rw [if_pos (show (0:Nat) < (b :: bs).length by simp)]
            match hp : (st3.emit (Opcode.jump 9999)).patch
                st1.instructions.length
                (Opcode.jumpIfFalse
                  (st3.emit (Opcode.jump 9999)).instructions.length) with
            | none => intro h; exact Option.noConfusion h
            | some st5 =>
                simp only
                match he : compileElseifs fuel st5 elseif
                    (decide ((b :: bs).length > 0))
                    [(st3.emitReturnPosition (Opcode.jump 9999)).1] with
                | none => intro h; exact Option.noConfusion h
                | some (st6, endif2) =>
                    simp only
                    rw [if_pos (show (0:Nat) < (b :: bs).length by simp)]
                    match hel : compileStmt fuel st6
                        (Stmt.block (b :: bs)) with
                    | none => intro h; exact Option.noConfusion h
                    | some st7 =>
                        intro h
                        have hfin := patchEndif_ok endif2 st7 st' h
                        obtain ⟨⟨newPs, hnp, hT, hF, htrans⟩, hpre6,
                          houter6⟩ := (compile_COk fuel).2.2.2.2.2 st5 elseif
                            (decide ((b :: bs).length > 0))
                            [(st3.emitReturnPosition (Opcode.jump 9999)).1]
                            st6 endif2 he
                        refine ⟨endif2, ?_, ?_⟩
                        · rw [hnp]
                          simp only [List.length_append,
                            List.length_singleton, hT (by simp)]
                        · intro p hpmem
                          have hv := hfin.2.2.2.2.2.1 p hpmem
                          rw [hfin.1]
                          exact hv

/-- C6 witness: both parts at concrete inputs — part 1 on the program
`true;`, part 2 on `if (true) {} else { true; }`. -/
theorem c6_jump_targets_witness :
    (jumpTargetsOk [Opcode.loadConstant 0] ∧ constsOk [Obj.boolean true])
    ∧ ∃ ps : List Nat,
        ps.length = 1 + List.length ([] : List (ExprType × List Stmt))
        ∧ ∀ p ∈ ps, ([Opcode.loadConstant 0, Opcode.jumpIfFalse 3,
            Opcode.jump 4, Opcode.loadConstant 1] : List Opcode)[p]?
          = some (Opcode.jump ([Opcode.loadConstant 0,
            Opcode.jumpIfFalse 3, Opcode.jump 4,
            Opcode.loadConstant 1] : List Opcode).length) :=
  ⟨c6_jump_targets_and_shared_end.1 9 [Stmt.exprS (.literal (.boolL true))]
      ⟨[Obj.boolean true], [Opcode.loadConstant 0], [], SymbolTable.new⟩ rfl,
   c6_jump_targets_and_shared_end.2 8 CState.new (.literal (.boolL true)) []
      [] (Stmt.exprS (.literal (.boolL true))) []
      ⟨[Obj.boolean true, Obj.boolean true],
        [Opcode.loadConstant 0, Opcode.jumpIfFalse 3, Opcode.jump 4,
          Opcode.loadConstant 1], [], SymbolTable.new⟩ rfl⟩

end Lox
